import Mathlib

/-!
# Smart-Task-Analyzer: a shallow embedding of the core engines

This file embeds the two algorithmic engines of the repository
(`tasks/scoring.py`, `tasks/sorting_strategies.py`, `tasks/dependency_analyzer.py`)
as executable Lean definitions and proves/refutes the frozen claims about them.

Modelling conventions:
* Task ids are strings; Python truthiness of an id (`if task_id:`) is `≠ ""`,
  a missing key is `Option.none`.
* `importance` / `estimated_hours` carry a `NumField`: `absent` (key missing,
  the `.get` default applies), `num q` (an int/float, modelled as an exact
  rational), or `malformed` (any non-numeric value, for which a Python
  comparison against a number raises `TypeError`).
* `due_date` carries a `DateField`: `absent` (defaults to `date.today()`),
  `dateObj d` (a `date` with proleptic-Gregorian ordinal `d`), `strVal s`
  (a string, to be parsed by `date.fromisoformat`), or `malformed`
  (a non-string non-date value; subtracting `today` raises `TypeError`,
  which the source catches).
* `dependencies` is a missing key or a list of id strings (the §3 data-model
  shape; the engines are only claimed over such records).
* `date.today()` is an effect: every function that calls it takes the current
  ordinal `today` as an explicit parameter.
* Python exceptions escaping a function are modelled by `Except Unit`,
  `.error ()` meaning an uncaught `TypeError`.
-/

deriving instance DecidableEq for Except

namespace STA

abbrev TaskId := String

inductive NumField where
  | absent : NumField
  | num : ℚ → NumField
  | malformed : NumField
deriving DecidableEq

inductive DateField where
  | absent : DateField
  | dateObj : ℤ → DateField
  | strVal : String → DateField
  | malformed : DateField
deriving DecidableEq

structure Task where
  id : Option TaskId
  title : Option String
  due_date : DateField
  importance : NumField
  estimated_hours : NumField
  dependencies : Option (List TaskId)
deriving DecidableEq

instance : Inhabited Task := ⟨⟨none, none, .absent, .absent, .absent, none⟩⟩

/-- `task_data.get(field, default)` followed by a numeric use: `some` the value
(or the default when the key is missing), `none` when the value is non-numeric
(the numeric use raises `TypeError`). -/
def toNum : NumField → ℚ → Option ℚ
  | .absent, dflt => some dflt
  | .num q, _ => some q
  | .malformed, _ => none

/-- `task.get('dependencies', [])` -/
def depsOf (t : Task) : List TaskId := t.dependencies.getD []

/-- Python's builtin `max` on two numbers (kernel-reducible). -/
def pyMax (a b : ℚ) : ℚ := if a ≤ b then b else a

/-- Python's builtin `min` on two numbers (kernel-reducible). -/
def pyMin (a b : ℚ) : ℚ := if b ≤ a then b else a

/-- Python's builtin `max` on two ints (kernel-reducible). -/
def pyMaxI (a b : ℤ) : ℤ := if a ≤ b then b else a

/-! ## `date.fromisoformat` and day counting -/

def isLeapYear (y : ℤ) : Bool := (y % 4 == 0 && y % 100 != 0) || y % 400 == 0

def daysInMonth (y m : ℤ) : ℤ :=
  if m = 2 then (if isLeapYear y then 29 else 28)
  else if m = 4 ∨ m = 6 ∨ m = 9 ∨ m = 11 then 30
  else 31

def daysBeforeMonth (y m : ℤ) : ℤ :=
  let base : ℤ :=
    if m = 1 then 0 else if m = 2 then 31 else if m = 3 then 59
    else if m = 4 then 90 else if m = 5 then 120 else if m = 6 then 151
    else if m = 7 then 181 else if m = 8 then 212 else if m = 9 then 243
    else if m = 10 then 273 else if m = 11 then 304 else 334
  if 3 ≤ m ∧ isLeapYear y then base + 1 else base

/-- `datetime.date.toordinal`: day 1 is 0001-01-01 (proleptic Gregorian). -/
def toOrdinal (y m d : ℤ) : ℤ :=
  365 * (y - 1) + (y - 1) / 4 - (y - 1) / 100 + (y - 1) / 400 + daysBeforeMonth y m + d

def digitVal (c : Char) : Option ℤ :=
  if c.isDigit then some ((c.toNat : ℤ) - 48) else none

/-- `date.fromisoformat`: accepts exactly `YYYY-MM-DD` with a valid calendar
date (year 1–9999); returns its ordinal, `none` modelling `ValueError`. -/
def parseIso (s : String) : Option ℤ :=
  match s.toList with
  | [y1, y2, y3, y4, h1, m1, m2, h2, d1, d2] =>
    if h1 = '-' ∧ h2 = '-' then
      match digitVal y1, digitVal y2, digitVal y3, digitVal y4,
            digitVal m1, digitVal m2, digitVal d1, digitVal d2 with
      | some a, some b, some c, some d, some e, some f, some g, some h =>
        let y := 1000 * a + 100 * b + 10 * c + d
        let m := 10 * e + f
        let dd := 10 * g + h
        if 1 ≤ y ∧ y ≤ 9999 ∧ 1 ≤ m ∧ m ≤ 12 ∧ 1 ≤ dd ∧ dd ≤ daysInMonth y m then
          some (toOrdinal y m dd)
        else none
      | _, _, _, _, _, _, _, _ => none
    else none
  | _ => none

/-- The urgency block of `calculate_task_score` (scoring.py lines 32-59):
`some d` is `days_until_due = (due_date - today).days`; `none` means the date
computation raised (`ValueError`/`TypeError`) and the `except` branch runs. -/
def dueDays (today : ℤ) : DateField → Option ℤ
  | .absent => some 0
  | .dateObj d => some (d - today)
  | .strVal s =>
    match parseIso s with
    | some d => some (d - today)
    | none => none
  | .malformed => none

/-- Urgency points for a known `days_until_due` (scoring.py lines 42-55). -/
def urgency_points (d : ℤ) : ℚ :=
  if d < 0 then 100 + (d.natAbs : ℚ) * 10
  else if d = 0 then 80
  else if d ≤ 1 then 60
  else if d ≤ 3 then 40
  else if d ≤ 7 then 20
  else ((pyMaxI 0 (10 - d / 7) : ℤ) : ℚ)

/-- Urgency term including the parse-failure fallback (`score += 15`). -/
def urgency_of : Option ℤ → ℚ
  | some d => urgency_points d
  | none => 15

/-- Effort term (scoring.py lines 66-74). -/
def effort_points (hours : ℚ) : ℚ :=
  if hours ≤ 1 then 15
  else if hours ≤ 2 then 10
  else if hours ≤ 4 then 5
  else -(pyMax 0 ((hours - 4) * 2))

/-- Dependency bonus (scoring.py lines 77-78): `not dependencies or
len(dependencies) == 0` is emptiness for an absent-or-list field. -/
def dep_points (t : Task) : ℚ := if depsOf t = [] then 5 else 0

/-- The "special combinations" block (scoring.py lines 82-90).  When the date
computation failed, `days_until_due` is an unbound local, the first `if`
raises `NameError` and the bare `except` skips the whole block, so neither
bonus applies.  `importance` here is the already-clamped value. -/
def combo_points (daysOpt : Option ℤ) (importance hours : ℚ) : ℚ :=
  match daysOpt with
  | some d =>
    (if d < 0 ∧ importance ≥ 8 then 25 else 0) +
    (if hours ≤ 2 ∧ importance ≥ 7 then 10 else 0)
  | none => 0

/-- `calculate_task_score` (scoring.py lines 4-92).  An uncaught `TypeError`
(non-numeric `importance` at the clamp, or non-numeric `estimated_hours` at
the effort comparison) is `.error ()`.  The five terms are summed and floored
at 0. -/
def calculate_task_score (today : ℤ) (t : Task) : Except Unit ℚ :=
  match toNum t.importance 5 with
  | none => .error ()
  | some imp0 =>
    let importance := pyMax 1 (pyMin 10 imp0)
    let daysOpt := dueDays today t.due_date
    match toNum t.estimated_hours 1 with
    | none => .error ()
    | some hours =>
      .ok (pyMax 0 (urgency_of daysOpt + importance * 8 + effort_points hours +
        dep_points t + combo_points daysOpt importance hours))

/-- `get_task_priority_level` (scoring.py lines 95-114). -/
def get_task_priority_level (score : ℚ) : String :=
  if score ≥ 100 then "CRITICAL"
  else if score ≥ 70 then "HIGH"
  else if score ≥ 40 then "MEDIUM"
  else if score ≥ 20 then "LOW"
  else "MINIMAL"

/-- `', '.join` -/
def joinComma : List String → String
  | [] => ""
  | [x] => x
  | x :: y :: ys => x ++ ", " ++ joinComma (y :: ys)

/-- `explain_score` (scoring.py lines 117-170).  The date block re-derives its
signal under a bare `except` that yields the neutral tag; the importance and
effort comparisons are outside any `try` and raise on non-numeric values. -/
def explain_score (today : ℤ) (t : Task) (score : ℚ) : Except Unit String :=
  let dateTags : List String :=
    match dueDays today t.due_date with
    | some d =>
      if d < 0 then ["⚠️ OVERDUE by " ++ toString d.natAbs ++ " days"]
      else if d = 0 then ["🔥 Due TODAY"]
      else if d ≤ 3 then ["⏰ Due in " ++ toString d ++ " days"]
      else []
    | none => ["📅 Date unclear"]
  match toNum t.importance 5 with
  | none => .error ()
  | some importance =>
    let impTags : List String :=
      if importance ≥ 8 then ["🎯 Very important (" ++ toString importance ++ "/10)"]
      else if importance ≥ 6 then ["📌 Important (" ++ toString importance ++ "/10)"]
      else []
    match toNum t.estimated_hours 1 with
    | none => .error ()
    | some hours =>
      let effortTags : List String :=
        if hours ≤ 1 then ["⚡ Quick win (≤1h)"]
        else if hours ≤ 2 then ["🏃 Fast task (≤2h)"]
        else []
      let explanations := dateTags ++ impTags ++ effortTags
      let base := "Priority: " ++ get_task_priority_level score ++
        " (Score: " ++ toString score ++ ")"
      .ok (if explanations = [] then base else base ++ " - " ++ joinComma explanations)

/-! ## Arithmetic facts about the scoring terms -/

theorem le_pyMax_left (a b : ℚ) : a ≤ pyMax a b := by
  unfold pyMax; split_ifs with h
  · exact h
  · exact le_refl a

theorem le_pyMax_right (a b : ℚ) : b ≤ pyMax a b := by
  unfold pyMax; split_ifs with h
  · exact le_refl b
  · exact le_of_not_le h

theorem pyMax_le {a b c : ℚ} (h1 : a ≤ c) (h2 : b ≤ c) : pyMax a b ≤ c := by
  unfold pyMax; split_ifs <;> assumption

theorem pyMax_le_pyMax_right {b c : ℚ} (a : ℚ) (h : b ≤ c) : pyMax a b ≤ pyMax a c := by
  unfold pyMax; split_ifs <;> first | assumption | linarith

theorem pyMin_le_pyMin_right {b c : ℚ} (a : ℚ) (h : b ≤ c) : pyMin a b ≤ pyMin a c := by
  unfold pyMin; split_ifs <;> first | assumption | linarith

theorem clamp_mono {x y : ℚ} (h : x ≤ y) :
    pyMax 1 (pyMin 10 x) ≤ pyMax 1 (pyMin 10 y) :=
  pyMax_le_pyMax_right 1 (pyMin_le_pyMin_right 10 h)

theorem urgency_points_overdue {d : ℤ} (hd : d < 0) : 110 ≤ urgency_points d := by
  unfold urgency_points
  rw [if_pos hd]
  have h1 : 1 ≤ d.natAbs := Int.natAbs_pos.mpr (by omega)
  have h2 : (1 : ℚ) ≤ (d.natAbs : ℚ) := by exact_mod_cast h1
  linarith

theorem effort_points_ge {h : ℚ} (hle : h ≤ 13) : -18 ≤ effort_points h := by
  unfold effort_points
  split_ifs with h1 h2 h3
  · norm_num
  · norm_num
  · norm_num
  · have : pyMax 0 ((h - 4) * 2) ≤ 18 := pyMax_le (by norm_num) (by linarith)
    linarith

theorem ite_nonneg {P : Prop} [Decidable P] {a b : ℚ} (ha : 0 ≤ a) (hb : 0 ≤ b) :
    0 ≤ if P then a else b := by
  split_ifs <;> assumption

theorem combo_points_nonneg (dOpt : Option ℤ) (i h : ℚ) : 0 ≤ combo_points dOpt i h := by
  cases dOpt with
  | none => exact le_refl 0
  | some d =>
    exact add_nonneg (ite_nonneg (by norm_num) (le_refl 0)) (ite_nonneg (by norm_num) (le_refl 0))

theorem dep_points_nonneg (t : Task) : 0 ≤ dep_points t := by
  unfold dep_points; split_ifs <;> norm_num

/-- `(if P then a else b) ≤ (if Q then a else b)` when `P → Q` and `b ≤ a`. -/
theorem ite_le_ite_of_imp {P Q : Prop} [Decidable P] [Decidable Q] (hPQ : P → Q)
    {a b : ℚ} (hba : b ≤ a) : (if P then a else b) ≤ (if Q then a else b) := by
  split_ifs with h1 h2 h3
  · exact le_refl a
  · exact absurd (hPQ h1) h2
  · exact hba
  · exact le_refl b

theorem combo_points_mono (dOpt : Option ℤ) (h : ℚ) {i1 i2 : ℚ} (hle : i1 ≤ i2) :
    combo_points dOpt i1 h ≤ combo_points dOpt i2 h := by
  cases dOpt with
  | none => exact le_refl _
  | some d =>
    unfold combo_points
    exact add_le_add
      (ite_le_ite_of_imp (fun ⟨a, b⟩ => ⟨a, le_trans b hle⟩) (by norm_num))
      (ite_le_ite_of_imp (fun ⟨a, b⟩ => ⟨a, le_trans b hle⟩) (by norm_num))

theorem toNum_num (q d : ℚ) : toNum (.num q) d = some q := rfl

theorem toNum_absent (d : ℚ) : toNum .absent d = some d := rfl

theorem dep_points_update_importance (t : Task) (x : NumField) :
    dep_points { t with importance := x } = dep_points t := rfl

/-! ## Claims about the scoring engine -/

/-- Counterexample task for C3: one day overdue but with a 200-hour effort
estimate, whose effort penalty drives the pre-floor sum negative. -/
def c3cex : Task := ⟨none, none, .dateObj 9, .absent, .num 200, none⟩

/-- C3 counterexample: `c3cex` is due strictly before `today = 10`, yet its
score is the floor value 0, not ≥ 100, because the claim ignores the unbounded
effort penalty (scoring.py line 74). -/
theorem C3_counterexample :
    dueDays 10 c3cex.due_date = some (-1) ∧ (-1 : ℤ) < 0 ∧
    calculate_task_score 10 c3cex = Except.ok 0 ∧ ¬ (100 : ℚ) ≤ 0 := by
  refine ⟨rfl, by decide, ?_, by norm_num⟩
  norm_num [calculate_task_score, toNum, dueDays, urgency_of, urgency_points,
    effort_points, dep_points, combo_points, pyMax, pyMin, depsOf, c3cex]

/-- C3 (amended): for every task whose `due_date` resolves to a calendar date
strictly earlier than today, whose `importance` and `estimated_hours` are
numeric or absent, and whose effective hours are at most 13,
`calculate_task_score` returns a value that is at least 100. -/
theorem C3_overdue_scores_at_least_100 (today : ℤ) (t : Task) (d : ℤ) (i h : ℚ)
    (hdue : dueDays today t.due_date = some d) (hd : d < 0)
    (hi : toNum t.importance 5 = some i)
    (hh : toNum t.estimated_hours 1 = some h) (hle : h ≤ 13) :
    ∃ s, calculate_task_score today t = Except.ok s ∧ 100 ≤ s := by
  have hs : calculate_task_score today t = Except.ok (pyMax 0
      (urgency_of (dueDays today t.due_date) + pyMax 1 (pyMin 10 i) * 8 +
        effort_points h + dep_points t +
        combo_points (dueDays today t.due_date) (pyMax 1 (pyMin 10 i)) h)) := by
    simp only [calculate_task_score, hi, hh]
  refine ⟨_, hs, ?_⟩
  rw [hdue]
  have h110 := urgency_points_overdue hd
  have hcl : (1 : ℚ) ≤ pyMax 1 (pyMin 10 i) := le_pyMax_left 1 _
  have heff := effort_points_ge hle
  have hdep := dep_points_nonneg t
  have hcombo := combo_points_nonneg (some d) (pyMax 1 (pyMin 10 i)) h
  refine le_trans ?_ (le_pyMax_right 0 _)
  simp only [urgency_of]
  nlinarith [hcl]

/-- C3 witness: a task one day overdue with default importance and hours. -/
theorem C3_witness :
    ∃ s, calculate_task_score 10 ⟨none, none, .dateObj 9, .absent, .absent, none⟩ =
      Except.ok s ∧ 100 ≤ s :=
  C3_overdue_scores_at_least_100 10 ⟨none, none, .dateObj 9, .absent, .absent, none⟩
    (-1) 5 1 (by decide) (by decide) rfl rfl (by norm_num)

/-- Counterexample task for C4/C7: a non-numeric `importance` value. -/
def c4cex : Task := ⟨none, none, .absent, .malformed, .absent, none⟩

/-- The `dependencies` slot as `calculate_task_score` reads it
(`task_data.get('dependencies', [])`, scoring.py line 26): the `Task` model
restricts the field to absent-or-list, so this type also covers the non-list
values a raw dict could hold, classified by how
`not dependencies or len(dependencies) == 0` (line 77) treats them. -/
inductive PyDeps
  | list (l : List TaskId)
  | falsy
  | truthySized (n : Nat)
  | truthyUnsized
deriving DecidableEq

/-- The dependency bonus (scoring.py lines 76-78) over any Python value:
an absent key defaults to `[]`; a falsy value short-circuits `not
dependencies`; a truthy sized value reaches `len(dependencies) == 0`; a
truthy value without a length raises `TypeError` at `len(dependencies)`. -/
def dep_points_py : PyDeps → Except Unit ℚ
  | .list l => .ok (if l.isEmpty then 5 else 0)
  | .falsy => .ok 5
  | .truthySized n => .ok (if n = 0 then 5 else 0)
  | .truthyUnsized => .error ()

/-- `calculate_task_score` (scoring.py lines 4-92) with the `dependencies`
slot ranging over all Python values; the raise at `len(dependencies)` (line
77) sits after the importance clamp and the effort comparisons and outside
every `try`. -/
def calculate_task_score_py (today : ℤ) (t : Task) (deps : PyDeps) : Except Unit ℚ :=
  match toNum t.importance 5 with
  | none => .error ()
  | some imp0 =>
    let importance := pyMax 1 (pyMin 10 imp0)
    let daysOpt := dueDays today t.due_date
    match toNum t.estimated_hours 1 with
    | none => .error ()
    | some hours =>
      match dep_points_py deps with
      | .error _ => .error ()
      | .ok dp =>
        .ok (pyMax 0 (urgency_of daysOpt + importance * 8 + effort_points hours +
          dp + combo_points daysOpt importance hours))

theorem dep_points_py_list (t : Task) :
    dep_points_py (.list (depsOf t)) = Except.ok (dep_points t) := by
  simp only [dep_points_py, dep_points, List.isEmpty_iff]

/-- On the records the `Task` model represents (`dependencies` absent or a
list) the extended scorer agrees with `calculate_task_score`. -/
theorem calculate_task_score_py_eq (today : ℤ) (t : Task) :
    calculate_task_score_py today t (.list (depsOf t)) =
      calculate_task_score today t := by
  cases h1 : toNum t.importance 5 with
  | none => simp only [calculate_task_score_py, calculate_task_score, h1]
  | some i =>
    cases h2 : toNum t.estimated_hours 1 with
    | none => simp only [calculate_task_score_py, calculate_task_score, h1, h2]
    | some h =>
      simp only [calculate_task_score_py, calculate_task_score, h1, h2,
        dep_points_py_list]

/-- C4 counterexample: a record whose `importance` is non-numeric makes
`calculate_task_score` raise `TypeError` at `max(1, min(10, importance))`
(scoring.py line 29), so it does not return a value at all; likewise a record
whose `dependencies` is a truthy non-sized value (e.g. the number 5) raises
`TypeError` at `len(dependencies)` (line 77) even with every other field
missing. -/
theorem C4_counterexample :
    calculate_task_score 0 c4cex = Except.error () ∧
    calculate_task_score_py 0 ⟨none, none, .absent, .absent, .absent, none⟩
      PyDeps.truthyUnsized = Except.error () :=
  ⟨rfl, rfl⟩

/-- C4 (amended): for every task record whose `importance` and
`estimated_hours` are numeric or absent and whose `dependencies` value is not
a truthy object without a length — it is absent, a list, a falsy value or a
sized value (`due_date` arbitrary, including malformed) —
`calculate_task_score` returns normally and the result is ≥ 0. -/
theorem C4_score_total_and_nonneg (today : ℤ) (t : Task) (deps : PyDeps) (i h : ℚ)
    (hi : toNum t.importance 5 = some i) (hh : toNum t.estimated_hours 1 = some h)
    (hd : deps ≠ PyDeps.truthyUnsized) :
    ∃ s, calculate_task_score_py today t deps = Except.ok s ∧ 0 ≤ s := by
  obtain ⟨dp, hdp⟩ : ∃ dp, dep_points_py deps = Except.ok dp := by
    cases deps with
    | list l => exact ⟨_, rfl⟩
    | falsy => exact ⟨_, rfl⟩
    | truthySized n => exact ⟨_, rfl⟩
    | truthyUnsized => exact absurd rfl hd
  have hs : calculate_task_score_py today t deps = Except.ok (pyMax 0
      (urgency_of (dueDays today t.due_date) + pyMax 1 (pyMin 10 i) * 8 +
        effort_points h + dp +
        combo_points (dueDays today t.due_date) (pyMax 1 (pyMin 10 i)) h)) := by
    simp only [calculate_task_score_py, hi, hh, hdp]
  exact ⟨_, hs, le_pyMax_left 0 _⟩

/-- C4 witness: the empty record (all fields missing, dependencies the
default empty list). -/
theorem C4_witness :
    ∃ s, calculate_task_score_py 0 ⟨none, none, .absent, .absent, .absent, none⟩
      (PyDeps.list []) = Except.ok s ∧ 0 ≤ s :=
  C4_score_total_and_nonneg 0 ⟨none, none, .absent, .absent, .absent, none⟩
    (PyDeps.list []) 5 1 rfl rfl (by decide)

/-- C6 counterexample: two tasks identical except integer importances 11 and
12; both clamp to 10 and score exactly the same, so the higher one is not
strictly higher. -/
theorem C6_counterexample :
    (11 : ℤ) < 12 ∧
    calculate_task_score 0 ⟨none, none, .absent, .num 11, .absent, none⟩ = Except.ok 190 ∧
    calculate_task_score 0 ⟨none, none, .absent, .num 12, .absent, none⟩ = Except.ok 190 ∧
    ¬ (190 : ℚ) < 190 := by
  refine ⟨by decide, ?_, ?_, by norm_num⟩ <;>
  norm_num [calculate_task_score, toNum, dueDays, urgency_of, urgency_points,
    effort_points, dep_points, combo_points, pyMax, pyMin, depsOf]

/-- C6 (amended): for two task records identical except `importance`, both
integers, the higher-importance task scores at least as high (strictness fails
when both clamp to the same value in [1,10], or when both scores floor at 0). -/
theorem C6_importance_monotone (today : ℤ) (t : Task) (i1 i2 : ℤ) (hlt : i1 < i2)
    (s1 s2 : ℚ)
    (h1 : calculate_task_score today { t with importance := .num (i1 : ℚ) } = Except.ok s1)
    (h2 : calculate_task_score today { t with importance := .num (i2 : ℚ) } = Except.ok s2) :
    s1 ≤ s2 := by
  cases hh : toNum t.estimated_hours 1 with
  | none => simp [calculate_task_score, toNum_num, hh] at h1
  | some h =>
    simp only [calculate_task_score, toNum_num, hh, dep_points_update_importance,
      Except.ok.injEq] at h1 h2
    subst h1
    subst h2
    have hc : pyMax 1 (pyMin 10 (i1 : ℚ)) ≤ pyMax 1 (pyMin 10 (i2 : ℚ)) :=
      clamp_mono (by exact_mod_cast hlt.le)
    have hm : pyMax 1 (pyMin 10 (i1 : ℚ)) * 8 ≤ pyMax 1 (pyMin 10 (i2 : ℚ)) * 8 := by
      linarith
    have hcb := combo_points_mono (dueDays today t.due_date) h hc
    refine pyMax_le (le_pyMax_left 0 _) (le_trans ?_ (le_pyMax_right 0 _))
    linarith

/-- C6 witness: importances 3 < 7 on the otherwise-empty record. -/
theorem C6_witness : (124 : ℚ) ≤ 166 :=
  C6_importance_monotone 0 ⟨none, none, .absent, .absent, .absent, none⟩ 3 7
    (by decide) 124 166
    (by norm_num [calculate_task_score, toNum, dueDays, urgency_of, urgency_points,
      effort_points, dep_points, combo_points, pyMax, pyMin, depsOf])
    (by norm_num [calculate_task_score, toNum, dueDays, urgency_of, urgency_points,
      effort_points, dep_points, combo_points, pyMax, pyMin, depsOf])

/-- C7 counterexample: `explain_score` raises `TypeError` at
`importance >= 8` (scoring.py line 152) when `importance` is non-numeric. -/
theorem C7_counterexample : explain_score 0 c4cex 10 = Except.error () := rfl

theorem joinComma_cons_exists (x : String) (l : List String) :
    ∃ post, joinComma (x :: l) = x ++ post := by
  cases l with
  | nil => exact ⟨"", (String.append_empty x).symm⟩
  | cons y ys => exact ⟨", " ++ joinComma (y :: ys), by rw [joinComma, String.append_assoc]⟩

/-- C7 (amended): for every task whose `importance` and `estimated_hours` are
numeric or absent and every score, `explain_score` returns a string, and when
the date computation fails that string contains the neutral tag
`📅 Date unclear`. -/
theorem C7_explain_total (today : ℤ) (t : Task) (score : ℚ) (i h : ℚ)
    (hi : toNum t.importance 5 = some i) (hh : toNum t.estimated_hours 1 = some h) :
    ∃ s, explain_score today t score = Except.ok s ∧
      (dueDays today t.due_date = none →
        ∃ pre post, s = pre ++ "📅 Date unclear" ++ post) := by
  cases hdd : dueDays today t.due_date with
  | some d =>
    have hs : ∃ s, explain_score today t score = Except.ok s := by
      simp only [explain_score, hi, hh, hdd]
      exact ⟨_, rfl⟩
    obtain ⟨s, hs⟩ := hs
    exact ⟨s, hs, fun hc => Option.noConfusion hc⟩
  | none =>
    have hs : explain_score today t score = Except.ok
        (("Priority: " ++ get_task_priority_level score ++ " (Score: " ++ toString score ++ ")"
          ++ " - ") ++ joinComma ("📅 Date unclear" ::
            ((if i ≥ 8 then ["🎯 Very important (" ++ toString i ++ "/10)"]
              else if i ≥ 6 then ["📌 Important (" ++ toString i ++ "/10)"] else []) ++
             (if h ≤ 1 then ["⚡ Quick win (≤1h)"]
              else if h ≤ 2 then ["🏃 Fast task (≤2h)"] else [])))) := by
      simp only [explain_score, hi, hh, hdd, List.cons_append, List.nil_append,
        List.singleton_append, List.append_assoc]
      rw [if_neg (by simp)]
    refine ⟨_, hs, fun _ => ?_⟩
    obtain ⟨post, hpost⟩ := joinComma_cons_exists "📅 Date unclear"
      ((if i ≥ 8 then ["🎯 Very important (" ++ toString i ++ "/10)"]
        else if i ≥ 6 then ["📌 Important (" ++ toString i ++ "/10)"] else []) ++
       (if h ≤ 1 then ["⚡ Quick win (≤1h)"]
        else if h ≤ 2 then ["🏃 Fast task (≤2h)"] else []))
    refine ⟨"Priority: " ++ get_task_priority_level score ++ " (Score: " ++ toString score ++ ")"
      ++ " - ", post, ?_⟩
    rw [hpost]
    exact (String.append_assoc _ _ _).symm

/-- C7 witness: a malformed `due_date` with numeric importance and hours. -/
theorem C7_witness :
    ∃ s, explain_score 0 ⟨none, none, .malformed, .num 3, .num 9, none⟩ 10 = Except.ok s ∧
      (dueDays 0 (Task.due_date ⟨none, none, .malformed, .num 3, .num 9, none⟩) = none →
        ∃ pre post, s = pre ++ "📅 Date unclear" ++ post) :=
  C7_explain_total 0 ⟨none, none, .malformed, .num 3, .num 9, none⟩ 10 3 9 rfl rfl

/-! ## The ranking strategies (sorting_strategies.py)

`sorted(tasks, key=f, reverse=True)` first evaluates the key on every element
left to right (any exception propagates), then stable-sorts descending by key.
Any stable descending sort produces the same list, so it is embedded as a
stable insertion sort on (task, key) pairs. -/

/-- Insert keeping descending key order; an element is placed after every
already-placed element whose key is strictly greater, and before the first one
whose key is ≤ its own, so earlier input wins ties. -/
def insertByKeyDesc (p : Task × ℚ) : List (Task × ℚ) → List (Task × ℚ)
  | [] => [p]
  | q :: qs => if p.2 < q.2 then q :: insertByKeyDesc p qs else p :: q :: qs

/-- Evaluate the sort key on each task, left to right, propagating the first
exception (the decorate phase of `sorted`). -/
def mapKeys (key : Task → Except Unit ℚ) : List Task → Except Unit (List ℚ)
  | [] => .ok []
  | t :: ts =>
    match key t with
    | .error e => .error e
    | .ok k =>
      match mapKeys key ts with
      | .error e => .error e
      | .ok ks => .ok (k :: ks)

/-- `sorted(tasks, key=key, reverse=True)`. -/
def pySortedDesc (key : Task → Except Unit ℚ) (tasks : List Task) :
    Except Unit (List Task) :=
  match mapKeys key tasks with
  | .error e => .error e
  | .ok ks => .ok (((tasks.zip ks).foldr insertByKeyDesc []).map Prod.fst)

/-- The key of `sort_fastest_wins` (sorting_strategies.py lines 14-28). -/
def fastest_wins_key (today : ℤ) (t : Task) : Except Unit ℚ :=
  match calculate_task_score today t with
  | .error e => .error e
  | .ok base =>
    match toNum t.estimated_hours 1 with
    | none => .error ()
    | some h =>
      .ok (base + (if h ≤ 1 then 50 else if h ≤ 2 then 30 else if h ≤ 4 then 15 else 0))

def sort_fastest_wins (today : ℤ) (tasks : List Task) : Except Unit (List Task) :=
  pySortedDesc (fastest_wins_key today) tasks

/-- The key of `sort_high_impact` (lines 37-40): `importance * 20 +
calculate_task_score(task) * 0.3`.  A non-numeric importance makes the
expression raise (either at `* 20` or at the later `+`), as does a score
failure; `0.3` is modelled as the exact rational the arithmetic denotes. -/
def high_impact_key (today : ℤ) (t : Task) : Except Unit ℚ :=
  match toNum t.importance 5 with
  | none => .error ()
  | some imp =>
    match calculate_task_score today t with
    | .error e => .error e
    | .ok s => .ok (imp * 20 + s * (3 / 10))

def sort_high_impact (today : ℤ) (tasks : List Task) : Except Unit (List Task) :=
  pySortedDesc (high_impact_key today) tasks

/-- The key of `sort_deadline_driven` (lines 49-76). -/
def deadline_driven_key (today : ℤ) (t : Task) : Except Unit ℚ :=
  let urgency : ℚ :=
    match dueDays today t.due_date with
    | some d =>
      if d < 0 then 1000 + (d.natAbs : ℚ) * 50
      else if d = 0 then 500
      else if d ≤ 1 then 400
      else if d ≤ 3 then 300
      else if d ≤ 7 then 200
      else ((pyMaxI 0 (100 - d) : ℤ) : ℚ)
    | none => 100
  match calculate_task_score today t with
  | .error e => .error e
  | .ok s => .ok (urgency + s * (1 / 5))

def sort_deadline_driven (today : ℤ) (tasks : List Task) : Except Unit (List Task) :=
  pySortedDesc (deadline_driven_key today) tasks

def sort_smart_balance (today : ℤ) (tasks : List Task) : Except Unit (List Task) :=
  pySortedDesc (calculate_task_score today) tasks

/-- `apply_sorting_strategy` (lines 108-122): an unregistered name is replaced
by `'smart_balance'` before the dictionary lookup. -/
def apply_sorting_strategy (today : ℤ) (tasks : List Task) (strategy : String) :
    Except Unit (List Task) :=
  if strategy = "fastest_wins" then sort_fastest_wins today tasks
  else if strategy = "high_impact" then sort_high_impact today tasks
  else if strategy = "deadline_driven" then sort_deadline_driven today tasks
  else sort_smart_balance today tasks

theorem insertByKeyDesc_perm (p : Task × ℚ) (l : List (Task × ℚ)) :
    (insertByKeyDesc p l).Perm (p :: l) := by
  induction l with
  | nil => exact List.Perm.refl _
  | cons q qs ih =>
    unfold insertByKeyDesc
    split_ifs
    · exact (ih.cons q).trans (List.Perm.swap p q qs)
    · exact List.Perm.refl _

theorem sortPairs_perm (l : List (Task × ℚ)) : (l.foldr insertByKeyDesc []).Perm l := by
  induction l with
  | nil => exact List.Perm.refl _
  | cons p ps ih => exact (insertByKeyDesc_perm p _).trans (ih.cons p)

theorem mapKeys_ok_length {key : Task → Except Unit ℚ} :
    ∀ {ts : List Task} {ks : List ℚ}, mapKeys key ts = Except.ok ks → ks.length = ts.length := by
  intro ts
  induction ts with
  | nil => intro ks h; simp only [mapKeys, Except.ok.injEq] at h; rw [← h]; rfl
  | cons t ts ih =>
    intro ks h
    simp only [mapKeys] at h
    cases hk : key t with
    | error e => rw [hk] at h; exact Except.noConfusion h
    | ok k =>
      rw [hk] at h
      cases hm : mapKeys key ts with
      | error e => rw [hm] at h; exact Except.noConfusion h
      | ok ks0 =>
        rw [hm] at h
        cases h
        simp [ih hm]

theorem pySortedDesc_perm {key : Task → Except Unit ℚ} {tasks l : List Task}
    (h : pySortedDesc key tasks = Except.ok l) : l.Perm tasks := by
  unfold pySortedDesc at h
  cases hm : mapKeys key tasks with
  | error e => rw [hm] at h; exact Except.noConfusion h
  | ok ks =>
    rw [hm] at h
    cases h
    have hp : ((tasks.zip ks).foldr insertByKeyDesc []).Perm (tasks.zip ks) :=
      sortPairs_perm _
    have := hp.map Prod.fst
    rwa [List.map_fst_zip tasks ks (le_of_eq (mapKeys_ok_length hm).symm)] at this

/-! ## Claims about the ranking strategies -/

/-- C8: for every task list and every strategy name other than the four
registered ones, `apply_sorting_strategy` returns exactly the result of
`smart_balance` (the silent fallback; in particular the unknown name causes no
lookup failure). -/
theorem C8_unknown_strategy_is_smart_balance (today : ℤ) (tasks : List Task) (s : String)
    (h1 : s ≠ "fastest_wins") (h2 : s ≠ "high_impact") (h3 : s ≠ "deadline_driven")
    (h4 : s ≠ "smart_balance") :
    apply_sorting_strategy today tasks s = apply_sorting_strategy today tasks "smart_balance" := by
  unfold apply_sorting_strategy
  rw [if_neg h1, if_neg h2, if_neg h3, if_neg (by decide), if_neg (by decide),
    if_neg (by decide)]

/-- C8 witness: the strategy name `"unknown_strategy"` on a one-task list. -/
theorem C8_witness :
    apply_sorting_strategy 0 [⟨none, none, .absent, .absent, .absent, none⟩] "unknown_strategy" =
      apply_sorting_strategy 0 [⟨none, none, .absent, .absent, .absent, none⟩] "smart_balance" :=
  C8_unknown_strategy_is_smart_balance 0 [⟨none, none, .absent, .absent, .absent, none⟩]
    "unknown_strategy" (by decide) (by decide) (by decide) (by decide)

/-- C9: for every task list and every strategy name, whenever
`apply_sorting_strategy` returns a list it is a permutation of the input:
each input task occurs exactly as often as in the input and nothing else. -/
theorem C9_strategies_permute (today : ℤ) (tasks : List Task) (strategy : String)
    (l : List Task) (h : apply_sorting_strategy today tasks strategy = Except.ok l) :
    l.Perm tasks := by
  unfold apply_sorting_strategy at h
  split_ifs at h
  · exact pySortedDesc_perm h
  · exact pySortedDesc_perm h
  · exact pySortedDesc_perm h
  · exact pySortedDesc_perm h

/-- C9 witness: `smart_balance` on a one-task list returns that list. -/
theorem C9_witness :
    List.Perm [(⟨none, none, .absent, .absent, .absent, none⟩ : Task)]
      [⟨none, none, .absent, .absent, .absent, none⟩] :=
  C9_strategies_permute 0 [⟨none, none, .absent, .absent, .absent, none⟩] "smart_balance"
    [⟨none, none, .absent, .absent, .absent, none⟩] rfl

/-! ## The dependency graph engine (dependency_analyzer.py) -/

/-- `task.get('id')` filtered by Python truthiness (`if task_id:`). -/
def taskIdOf (t : Task) : Option TaskId :=
  match t.id with
  | some i => if i = "" then none else some i
  | none => none

/-- Python `dict` assignment `d[k] = v`: overwrites in place when the key
exists, else appends (dicts preserve insertion order). -/
def dictUpsert {α : Type} (g : List (TaskId × α)) (k : TaskId) (v : α) :
    List (TaskId × α) :=
  if g.any (fun p => p.1 == k) then g.map (fun p => if p.1 = k then (k, v) else p)
  else g ++ [(k, v)]

/-- Python `d[k]` / `d.get(k)` on an insertion-ordered dict. -/
def lookupL {α : Type} (g : List (TaskId × α)) (k : TaskId) : Option α :=
  match g.find? (fun p => p.1 == k) with
  | some p => some p.2
  | none => none

/-- The dict-building loops (dependency_analyzer.py lines 25-29 and 112-117):
id ↦ `f task` for every task with a truthy id, later duplicates overwriting. -/
def buildDict {α : Type} (f : Task → α) (tasks : List Task) : List (TaskId × α) :=
  tasks.foldl (fun g t =>
    match taskIdOf t with
    | some i => dictUpsert g i (f t)
    | none => g) []

/-- The adjacency dict `graph`. -/
def graphOf (tasks : List Task) : List (TaskId × List TaskId) := buildDict depsOf tasks

/-- The dict `task_map`. -/
def taskMapOf (tasks : List Task) : List (TaskId × Task) := buildDict (fun t => t) tasks

def keysG {α : Type} (g : List (TaskId × α)) : List TaskId := g.map Prod.fst

/-- `graph[k]` for a node of the graph (`[]` off the key set; the source only
indexes present keys). -/
def gdepsOf (g : List (TaskId × List TaskId)) (k : TaskId) : List TaskId :=
  (lookupL g k).getD []

structure DfsState where
  visited : List TaskId
  recStack : List TaskId
  path : List TaskId
  chains : List (List TaskId)
deriving DecidableEq

/-- One call of the closure `dfs(node, path)` (dependency_analyzer.py lines
36-62); the `for dependency in graph[node]` loop is the fold.  `fuel` bounds
the nesting depth (children run at `fuel - 1`); `graph.length + 1` always
suffices because every recursing call first marks an unvisited node visited.
`path.index(node)` is `indexOf`; the slice `path[cycle_start:] + [node]` is
`drop _ ++ [node]`; `rec_stack.remove(node)` is `erase` (the recursion stack
never holds duplicates) and `path.pop()` is `dropLast`. -/
def dfsNode (g : List (TaskId × List TaskId)) : Nat → TaskId → DfsState → DfsState
  | 0, _, st => st
  | fuel + 1, node, st =>
    match lookupL g node with
    | none => st
    | some deps =>
      if node ∈ st.recStack then
        { st with chains := st.chains ++ [st.path.drop (st.path.indexOf node) ++ [node]] }
      else if node ∈ st.visited then st
      else
        let st1 : DfsState :=
          { st with visited := st.visited ++ [node],
                    recStack := st.recStack ++ [node],
                    path := st.path ++ [node] }
        let st2 := deps.foldl (fun st d => dfsNode g fuel d st) st1
        { st2 with recStack := st2.recStack.erase node, path := st2.path.dropLast }

structure DetectResult where
  has_circular : Bool
  circular_chains : List (List TaskId)
  warnings : List String
deriving DecidableEq

/-- `' → '.join` -/
def joinArrow : List String → String
  | [] => ""
  | [x] => x
  | x :: y :: ys => x ++ " → " ++ joinArrow (y :: ys)

/-- `task_map[task_id].get('title', f'Task {task_id}')` with the same fallback
for ids off the map (lines 73-78). -/
def titleOf (tm : List (TaskId × Task)) (i : TaskId) : String :=
  match lookupL tm i with
  | some t => t.title.getD ("Task " ++ i)
  | none => "Task " ++ i

/-- One warning string (line 80); chains always have ≥ 2 entries so the
`names.headD ""` default is never used. -/
def renderWarning (tm : List (TaskId × Task)) (chain : List TaskId) : String :=
  let names := chain.dropLast.map (titleOf tm)
  "Circular dependency detected: " ++ joinArrow names ++ " → " ++ names.headD ""

/-- `detect_circular_dependencies` (lines 7-86). -/
def detect_circular_dependencies (tasks : List Task) : DetectResult :=
  let g := graphOf tasks
  let tm := taskMapOf tasks
  let keys := keysG g
  let final := keys.foldl
    (fun st k => if k ∈ st.visited then st
      else dfsNode g (keys.length + 1) k { st with path := [] })
    ⟨[], [], [], []⟩
  { has_circular := !final.chains.isEmpty,
    circular_chains := final.chains,
    warnings := final.chains.map (renderWarning tm) }

/-- The in-degree as the source computes it (lines 120-123): the number of a
task's own dependency entries, counted with multiplicity, that are present as
graph keys. -/
def initDeg (g : List (TaskId × List TaskId)) (k : TaskId) : ℤ :=
  (((gdepsOf g k).countP fun d => (keysG g).contains d : ℕ) : ℤ)

/-- The inner `for task_id in graph:` loop of one Kahn iteration (lines
134-138): decrement the degree of every node whose dependency list contains
`current`, enqueueing nodes whose degree reaches exactly 0. -/
def decrementFor (g : List (TaskId × List TaskId)) (current : TaskId)
    (acc : List (TaskId × ℤ) × List TaskId) : List (TaskId × ℤ) × List TaskId :=
  g.foldl (fun acc p =>
    if p.2.contains current then
      (dictUpsert acc.1 p.1 ((lookupL acc.1 p.1).getD 0 - 1),
       if (lookupL acc.1 p.1).getD 0 - 1 = 0 then acc.2 ++ [p.1] else acc.2)
    else acc) acc

/-- The `while queue:` loop (lines 129-138).  Each iteration moves one queue
element to the output, so `graph.length + 1` fuel always suffices (no node is
enqueued twice; proved below). -/
def kahnLoop (g : List (TaskId × List TaskId)) :
    Nat → List TaskId → List (TaskId × ℤ) → List TaskId → List TaskId
  | 0, _, _, ordered => ordered
  | fuel + 1, queue, degrees, ordered =>
    match queue with
    | [] => ordered
    | current :: rest =>
      let acc := decrementFor g current (degrees, rest)
      kahnLoop g fuel acc.2 acc.1 (ordered ++ [current])

structure DepOrderResult where
  ordered_tasks : List Task
  circular_dependencies : DetectResult
  warnings : List String
deriving DecidableEq

/-- `get_dependency_order` (lines 89-159).  `set(task_map.keys()) -
set(ordered_task_ids)` is iterated in an implementation-defined hash order in
Python (salted for strings); it is modelled as first-insertion (input) order,
which is one of its possible behaviours.  The trailing warning's
`str(list(...))` rendering is modelled as a comma join (no claim concerns its
exact text). -/
def get_dependency_order (tasks : List Task) : DepOrderResult :=
  let circular_info := detect_circular_dependencies tasks
  let g := graphOf tasks
  let tm := taskMapOf tasks
  let keys := keysG g
  let degrees := keys.map (fun k => (k, initDeg g k))
  let queue := (degrees.filter (fun p => p.2 == 0)).map Prod.fst
  let orderedIds := kahnLoop g (keys.length + 1) queue degrees []
  let ordered := orderedIds.filterMap (fun i => lookupL tm i)
  let remainingIds := keys.filter (fun k => !(orderedIds.contains k))
  let remaining := remainingIds.filterMap (fun i => lookupL tm i)
  { ordered_tasks := ordered ++ remaining,
    circular_dependencies := circular_info,
    warnings := circular_info.warnings ++
      (if remainingIds.isEmpty then []
       else ["Tasks with circular dependencies added at end: " ++ joinComma remainingIds]) }

/-! ## The dependency graph as the spec describes it -/

/-- The non-empty ids present in the input, in order. -/
def presentIds (tasks : List Task) : List TaskId := tasks.filterMap taskIdOf

/-- An edge of the claim-level dependency graph: some input task with
non-empty id `a` declares a dependency on `b`, and `b` is itself a non-empty
id present in the input. -/
def edgeT (tasks : List Task) (a b : TaskId) : Prop :=
  ∃ t ∈ tasks, taskIdOf t = some a ∧ b ∈ depsOf t ∧ b ∈ presentIds tasks

/-- A cycle in the claim-level graph (a non-empty edge path from a node back
to itself). -/
def HasCycleT (tasks : List Task) : Prop := ∃ x, Relation.TransGen (edgeT tasks) x x

/-- An edge of the graph dict the code builds. -/
def edgeG (g : List (TaskId × List TaskId)) (a b : TaskId) : Prop :=
  a ∈ keysG g ∧ b ∈ keysG g ∧ b ∈ gdepsOf g a

/-- A cycle in the code's graph dict. -/
def HasCycleG (g : List (TaskId × List TaskId)) : Prop :=
  ∃ x, Relation.TransGen (edgeG g) x x

/-- Any rank function that strictly decreases along edges rules out cycles. -/
theorem no_cycleT_of_rank {tasks : List Task} (rank : TaskId → ℕ)
    (h : ∀ x y, edgeT tasks x y → rank y < rank x) : ¬ HasCycleT tasks := by
  rintro ⟨x, hx⟩
  have key : ∀ a b, Relation.TransGen (edgeT tasks) a b → rank b < rank a := by
    intro a b hab
    induction hab with
    | single h1 => exact h _ _ h1
    | tail _ h1 ih => exact lt_trans (h _ _ h1) ih
  exact absurd (key x x hx) (lt_irrefl _)

/-! ## Association-list lemmas -/

theorem lookupL_nil {α : Type} (k : TaskId) : lookupL ([] : List (TaskId × α)) k = none := rfl

theorem lookupL_cons {α : Type} (p : TaskId × α) (l : List (TaskId × α)) (k : TaskId) :
    lookupL (p :: l) k = if p.1 = k then some p.2 else lookupL l k := by
  by_cases h : p.1 = k
  · rw [if_pos h]
    unfold lookupL
    rw [List.find?_cons_of_pos _ (by simp [h])]
  · rw [if_neg h]
    unfold lookupL
    rw [List.find?_cons_of_neg _ (by simp [h])]

theorem lookupL_eq_none {α : Type} {l : List (TaskId × α)} {k : TaskId}
    (h : k ∉ keysG l) : lookupL l k = none := by
  induction l with
  | nil => rfl
  | cons p l ih =>
    rw [lookupL_cons]
    rw [keysG, List.map_cons, List.mem_cons, not_or] at h
    rw [if_neg (fun hc => h.1 hc.symm), ih (by simpa [keysG] using h.2)]

theorem lookupL_isSome {α : Type} {l : List (TaskId × α)} {k : TaskId}
    (h : k ∈ keysG l) : ∃ v, lookupL l k = some v := by
  induction l with
  | nil => simp [keysG] at h
  | cons p l ih =>
    rw [lookupL_cons]
    split_ifs with hp
    · exact ⟨p.2, rfl⟩
    · rw [keysG, List.map_cons, List.mem_cons] at h
      exact ih (h.resolve_left (fun hc => hp hc.symm))

theorem lookupL_append {α : Type} (l1 l2 : List (TaskId × α)) (k : TaskId) :
    lookupL (l1 ++ l2) k =
      match lookupL l1 k with
      | some v => some v
      | none => lookupL l2 k := by
  induction l1 with
  | nil => rfl
  | cons p l ih =>
    rw [List.cons_append, lookupL_cons, lookupL_cons]
    split_ifs with h
    · rfl
    · rw [ih]

theorem mem_of_lookupL {α : Type} {l : List (TaskId × α)} {k : TaskId} {v : α}
    (h : lookupL l k = some v) : (k, v) ∈ l := by
  induction l with
  | nil => exact Option.noConfusion h
  | cons p l ih =>
    rw [lookupL_cons] at h
    split_ifs at h with hp
    · cases h
      cases p
      cases hp
      exact List.mem_cons_self _ _
    · exact List.mem_cons_of_mem _ (ih h)

theorem lookupL_of_mem_nodup {α : Type} {l : List (TaskId × α)} {k : TaskId} {v : α}
    (hnd : (keysG l).Nodup) (h : (k, v) ∈ l) : lookupL l k = some v := by
  induction l with
  | nil => simp at h
  | cons p l ih =>
    rw [keysG, List.map_cons, List.nodup_cons] at hnd
    rw [lookupL_cons]
    rcases List.mem_cons.mp h with h1 | h1
    · rw [← h1]
      simp
    · have hk : k ∈ keysG l := by
        rw [keysG, List.mem_map]
        exact ⟨(k, v), h1, rfl⟩
      rw [if_neg (fun hc => hnd.1 (by rw [hc]; exact hk)),
        ih (by simpa [keysG] using hnd.2) h1]

theorem keysG_dictUpsert_mem {α : Type} {l : List (TaskId × α)} {k : TaskId} (v : α)
    (h : k ∈ keysG l) : keysG (dictUpsert l k v) = keysG l := by
  unfold dictUpsert
  rw [if_pos]
  · unfold keysG
    rw [List.map_map]
    apply List.map_congr_left
    intro p _
    simp only [Function.comp_apply]
    split_ifs with hp
    · exact hp.symm
    · rfl
  · rw [List.any_eq_true]
    rw [keysG, List.mem_map] at h
    obtain ⟨p, hp, hk⟩ := h
    exact ⟨p, hp, by simp [hk]⟩

theorem dictUpsert_not_mem {α : Type} {l : List (TaskId × α)} {k : TaskId} (v : α)
    (h : k ∉ keysG l) : dictUpsert l k v = l ++ [(k, v)] := by
  unfold dictUpsert
  rw [if_neg]
  rw [List.any_eq_true]
  rintro ⟨p, hp, hk⟩
  rw [beq_iff_eq] at hk
  exact h (by rw [keysG, List.mem_map]; exact ⟨p, hp, hk⟩)

theorem lookupL_dictUpsert_self {α : Type} {l : List (TaskId × α)} {k : TaskId} (v : α) :
    lookupL (dictUpsert l k v) k = some v := by
  by_cases h : k ∈ keysG l
  · unfold dictUpsert
    rw [if_pos]
    · induction l with
      | nil => simp [keysG] at h
      | cons p l ih =>
        rw [List.map_cons, lookupL_cons]
        by_cases hp : p.1 = k
        · rw [if_pos hp, if_pos rfl]
        · rw [if_neg hp, if_neg hp]
          rw [keysG, List.map_cons, List.mem_cons] at h
          exact ih (h.resolve_left (fun hc => hp hc.symm))
    · rw [List.any_eq_true]
      rw [keysG, List.mem_map] at h
      obtain ⟨p, hp, hk⟩ := h
      exact ⟨p, hp, by simp [hk]⟩
  · rw [dictUpsert_not_mem v h, lookupL_append, lookupL_eq_none h]
    simp [lookupL_cons]

theorem lookupL_dictUpsert_ne {α : Type} {l : List (TaskId × α)} {k x : TaskId} (v : α)
    (h : x ≠ k) : lookupL (dictUpsert l k v) x = lookupL l x := by
  unfold dictUpsert
  split_ifs with hc
  · clear hc
    induction l with
    | nil => rfl
    | cons p l ih =>
      rw [List.map_cons, lookupL_cons, lookupL_cons]
      by_cases h1 : p.1 = k
      · rw [if_pos h1]
        rw [if_neg (fun hc2 : ((k, v) : TaskId × α).1 = x => h hc2.symm),
          if_neg (fun hc2 : p.1 = x => h (hc2.symm.trans h1))]
        exact ih
      · rw [if_neg h1]
        by_cases h2 : p.1 = x
        · rw [if_pos h2, if_pos h2]
        · rw [if_neg h2, if_neg h2]
          exact ih
  · rw [lookupL_append, lookupL_cons, lookupL_nil, if_neg (fun hc2 => h hc2.symm)]
    cases lookupL l x <;> rfl

theorem keysG_append {α : Type} (l1 l2 : List (TaskId × α)) :
    keysG (l1 ++ l2) = keysG l1 ++ keysG l2 := by
  simp [keysG]

theorem keysG_dictUpsert_not_mem {α : Type} {l : List (TaskId × α)} {k : TaskId} (v : α)
    (h : k ∉ keysG l) : keysG (dictUpsert l k v) = keysG l ++ [k] := by
  rw [dictUpsert_not_mem v h, keysG_append]
  rfl

theorem mem_dictUpsert {α : Type} {l : List (TaskId × α)} {k : TaskId} {v : α}
    {p : TaskId × α} (h : p ∈ dictUpsert l k v) : p ∈ l ∨ p = (k, v) := by
  unfold dictUpsert at h
  split_ifs at h with hc
  · rw [List.mem_map] at h
    obtain ⟨q, hq, hpq⟩ := h
    by_cases h1 : q.1 = k
    · rw [if_pos h1] at hpq
      exact Or.inr hpq.symm
    · rw [if_neg h1] at hpq
      exact Or.inl (hpq ▸ hq)
  · rcases List.mem_append.mp h with h1 | h1
    · exact Or.inl h1
    · exact Or.inr (List.mem_singleton.mp h1)

/-! ## `buildDict` lemmas -/

theorem presentIds_cons_none {t : Task} {ts : List Task} (h : taskIdOf t = none) :
    presentIds (t :: ts) = presentIds ts := by
  simp [presentIds, List.filterMap_cons, h]

theorem presentIds_cons_some {t : Task} {ts : List Task} {i : TaskId}
    (h : taskIdOf t = some i) : presentIds (t :: ts) = i :: presentIds ts := by
  simp [presentIds, List.filterMap_cons, h]

theorem keysG_buildDict_nodup {α : Type} (f : Task → α) (tasks : List Task) :
    (keysG (buildDict f tasks)).Nodup := by
  suffices h : ∀ g₀ : List (TaskId × α), (keysG g₀).Nodup →
      (keysG (tasks.foldl (fun g t =>
        match taskIdOf t with
        | some i => dictUpsert g i (f t)
        | none => g) g₀)).Nodup by
    exact h [] (by simp [keysG])
  induction tasks with
  | nil => intro g₀ h0; exact h0
  | cons t ts ih =>
    intro g₀ h0
    rw [List.foldl_cons]
    cases ht : taskIdOf t with
    | none => exact ih g₀ h0
    | some i =>
      refine ih _ ?_
      by_cases hm : i ∈ keysG g₀
      · rw [keysG_dictUpsert_mem _ hm]
        exact h0
      · rw [keysG_dictUpsert_not_mem _ hm]
        simpa using List.Nodup.append h0 (List.nodup_singleton i)
          (by simpa [List.disjoint_singleton] using hm)

theorem dictUpsert_map {α β : Type} (h : α → β) (l : List (TaskId × α)) (k : TaskId) (v : α) :
    dictUpsert (l.map (fun p => (p.1, h p.2))) k (h v) =
      (dictUpsert l k v).map (fun p => (p.1, h p.2)) := by
  unfold dictUpsert
  have hany : ((l.map (fun p => (p.1, h p.2))).any (fun p => p.1 == k)) =
      (l.any (fun p => p.1 == k)) := by
    induction l with
    | nil => rfl
    | cons p l ih => simp only [List.map_cons, List.any_cons, ih]
  rw [hany]
  split_ifs with hc
  · rw [List.map_map, List.map_map]
    apply List.map_congr_left
    intro p _
    simp only [Function.comp_apply]
    split_ifs with h1 <;> rfl
  · rw [List.map_append]
    rfl

theorem buildDict_eq_map {α : Type} (f : Task → α) (tasks : List Task) :
    buildDict f tasks = (taskMapOf tasks).map (fun p => (p.1, f p.2)) := by
  unfold buildDict taskMapOf
  suffices h : ∀ g₀ : List (TaskId × Task),
      (tasks.foldl (fun g t =>
        match taskIdOf t with
        | some i => dictUpsert g i (f t)
        | none => g) (g₀.map (fun p => (p.1, f p.2)))) =
      (tasks.foldl (fun g t =>
        match taskIdOf t with
        | some i => dictUpsert g i t
        | none => g) g₀).map (fun p => (p.1, f p.2)) by
    exact h []
  induction tasks with
  | nil => intro g₀; rfl
  | cons t ts ih =>
    intro g₀
    rw [List.foldl_cons, List.foldl_cons]
    cases ht : taskIdOf t with
    | none => exact ih g₀
    | some i =>
      show (ts.foldl (fun g t =>
          match taskIdOf t with
          | some i => dictUpsert g i (f t)
          | none => g) (dictUpsert (g₀.map (fun p => (p.1, f p.2))) i (f t))) =
        (ts.foldl (fun g t =>
          match taskIdOf t with
          | some i => dictUpsert g i t
          | none => g) (dictUpsert g₀ i t)).map (fun p => (p.1, f p.2))
      rw [dictUpsert_map f g₀ i t]
      exact ih _

theorem lookupL_map {α β : Type} (h : α → β) (l : List (TaskId × α)) (k : TaskId) :
    lookupL (l.map (fun p => (p.1, h p.2))) k = (lookupL l k).map h := by
  induction l with
  | nil => rfl
  | cons p l ih =>
    rw [List.map_cons, lookupL_cons, lookupL_cons]
    by_cases h1 : p.1 = k
    · rw [if_pos h1, if_pos h1]
      rfl
    · rw [if_neg h1, if_neg h1]
      exact ih

/-- The graph dict is the task-map dict with each task replaced by its
dependency list. -/
theorem lookupL_graphOf (tasks : List Task) (k : TaskId) :
    lookupL (graphOf tasks) k = (lookupL (taskMapOf tasks) k).map depsOf := by
  rw [graphOf, buildDict_eq_map depsOf tasks, lookupL_map]

theorem keysG_map {α β : Type} (h : α → β) (l : List (TaskId × α)) :
    keysG (l.map (fun p => (p.1, h p.2))) = keysG l := by
  unfold keysG
  rw [List.map_map]
  rfl

theorem keysG_graphOf_eq_taskMapOf (tasks : List Task) :
    keysG (graphOf tasks) = keysG (taskMapOf tasks) := by
  rw [graphOf, buildDict_eq_map depsOf tasks, keysG_map]

/-- Every entry of `task_map` pairs a task of the input with its own id. -/
theorem taskMapOf_entries (tasks : List Task) :
    ∀ p ∈ taskMapOf tasks, taskIdOf p.2 = some p.1 ∧ p.2 ∈ tasks := by
  unfold taskMapOf buildDict
  suffices h : ∀ (ts : List Task) (g₀ : List (TaskId × Task)),
      ∀ p ∈ ts.foldl (fun g t =>
        match taskIdOf t with
        | some i => dictUpsert g i t
        | none => g) g₀, p ∈ g₀ ∨ (taskIdOf p.2 = some p.1 ∧ p.2 ∈ ts) by
    intro p hp
    rcases h tasks [] p hp with h1 | h1
    · simp at h1
    · exact h1
  intro ts
  induction ts with
  | nil => intro g₀ p hp; exact Or.inl hp
  | cons t ts ih =>
    intro g₀ p hp
    rw [List.foldl_cons] at hp
    cases ht : taskIdOf t with
    | none =>
      rw [ht] at hp
      rcases ih g₀ p hp with h1 | h1
      · exact Or.inl h1
      · exact Or.inr ⟨h1.1, List.mem_cons_of_mem _ h1.2⟩
    | some i =>
      rw [ht] at hp
      rcases ih _ p hp with h1 | h1
      · rcases mem_dictUpsert h1 with h2 | h2
        · exact Or.inl h2
        · refine Or.inr ?_
          rw [h2]
          exact ⟨ht, List.mem_cons_self _ _⟩
      · exact Or.inr ⟨h1.1, List.mem_cons_of_mem _ h1.2⟩

theorem mem_keysG_buildDict {α : Type} (f : Task → α) (tasks : List Task) (x : TaskId) :
    x ∈ keysG (buildDict f tasks) ↔ x ∈ presentIds tasks := by
  unfold buildDict
  suffices h : ∀ (ts : List Task) (g₀ : List (TaskId × α)),
      x ∈ keysG (ts.foldl (fun g t =>
        match taskIdOf t with
        | some i => dictUpsert g i (f t)
        | none => g) g₀) ↔ x ∈ keysG g₀ ∨ x ∈ presentIds ts by
    rw [h tasks []]
    simp [keysG]
  intro ts
  induction ts with
  | nil => intro g₀; simp [presentIds]
  | cons t ts ih =>
    intro g₀
    rw [List.foldl_cons]
    cases ht : taskIdOf t with
    | none =>
      rw [presentIds_cons_none ht, ih g₀]
    | some i =>
      rw [presentIds_cons_some ht, ih _]
      by_cases hm : i ∈ keysG g₀
      · rw [keysG_dictUpsert_mem _ hm]
        constructor
        · rintro (h1 | h1)
          · exact Or.inl h1
          · exact Or.inr (List.mem_cons_of_mem _ h1)
        · rintro (h1 | h1)
          · exact Or.inl h1
          · rcases List.mem_cons.mp h1 with h2 | h2
            · exact Or.inl (h2 ▸ hm)
            · exact Or.inr h2
      · rw [keysG_dictUpsert_not_mem _ hm]
        simp only [List.mem_append, List.mem_singleton, List.mem_cons]
        tauto

/-- With unique non-empty ids no overwrite happens and the dict is just the
list of (id, value) pairs in input order. -/
theorem buildDict_nodup_eq {α : Type} (f : Task → α) :
    ∀ {tasks : List Task}, (presentIds tasks).Nodup →
      buildDict f tasks = tasks.filterMap (fun t => (taskIdOf t).map (fun i => (i, f t))) := by
  unfold buildDict
  suffices h : ∀ (ts : List Task) (g₀ : List (TaskId × α)), (presentIds ts).Nodup →
      (∀ i ∈ presentIds ts, i ∉ keysG g₀) →
      ts.foldl (fun g t =>
        match taskIdOf t with
        | some i => dictUpsert g i (f t)
        | none => g) g₀ = g₀ ++ ts.filterMap (fun t => (taskIdOf t).map (fun i => (i, f t))) by
    intro tasks hnd
    rw [h tasks [] hnd (by simp [keysG])]
    rfl
  intro ts
  induction ts with
  | nil => intro g₀ _ _; simp
  | cons t ts ih =>
    intro g₀ hnd hdisj
    rw [List.foldl_cons, List.filterMap_cons]
    cases ht : taskIdOf t with
    | none =>
      simp only [ht, Option.map_none']
      exact ih g₀ (by rwa [presentIds_cons_none ht] at hnd)
        (fun i hi => hdisj i (by rw [presentIds_cons_none ht]; exact hi))
    | some i =>
      simp only [ht, Option.map_some']
      rw [presentIds_cons_some ht] at hnd hdisj
      have hi0 : i ∉ keysG g₀ := hdisj i (List.mem_cons_self _ _)
      rw [dictUpsert_not_mem (f t) hi0]
      rw [ih (g₀ ++ [(i, f t)]) (List.nodup_cons.mp hnd).2 ?_]
      · simp
      · intro j hj
        rw [keysG_append]
        simp only [List.mem_append]
        rintro (hc | hc)
        · exact hdisj j (List.mem_cons_of_mem _ hj) hc
        · have hji : j = i := by simpa [keysG] using hc
          exact (List.nodup_cons.mp hnd).1 (hji ▸ hj)

/-- Under unique non-empty ids, the key list of the task map is exactly
`presentIds` in order. -/
theorem keysG_taskMapOf_nodup {tasks : List Task} (hnd : (presentIds tasks).Nodup) :
    keysG (taskMapOf tasks) = presentIds tasks := by
  rw [taskMapOf, buildDict_nodup_eq (fun t => t) hnd]
  induction tasks with
  | nil => rfl
  | cons t ts ih =>
    rw [List.filterMap_cons]
    cases ht : taskIdOf t with
    | none =>
      rw [presentIds_cons_none ht]
      exact ih (by rwa [presentIds_cons_none ht] at hnd)
    | some i =>
      rw [presentIds_cons_some ht]
      rw [presentIds_cons_some ht] at hnd
      have hih := ih (List.nodup_cons.mp hnd).2
      simp only [Option.map_some']
      show i :: keysG (ts.filterMap (fun t => (taskIdOf t).map (fun i => (i, t)))) =
        i :: presentIds ts
      rw [hih]

/-- The task found in `task_map` under a unique id is the input task with
that id. -/
theorem lookupL_taskMapOf {tasks : List Task} (hnd : (presentIds tasks).Nodup)
    {i : TaskId} {t : Task} (ht : t ∈ tasks) (hid : taskIdOf t = some i) :
    lookupL (taskMapOf tasks) i = some t := by
  have hkeys : (keysG (taskMapOf tasks)).Nodup := keysG_buildDict_nodup (fun t => t) tasks
  apply lookupL_of_mem_nodup hkeys
  rw [taskMapOf, buildDict_nodup_eq (fun t => t) hnd, List.mem_filterMap]
  exact ⟨t, ht, by rw [hid]; rfl⟩

/-! ## Kahn loop invariants -/

def lookupD (degs : List (TaskId × ℤ)) (k : TaskId) : ℤ := (lookupL degs k).getD 0

theorem contains_iff_mem {l : List TaskId} {x : TaskId} : l.contains x = true ↔ x ∈ l := by
  simp [List.contains]

/-- The dependency entries of `k` that are present as graph keys. -/
def presentDepsOf (g : List (TaskId × List TaskId)) (k : TaskId) : List TaskId :=
  (gdepsOf g k).filter (fun d => (keysG g).contains d)

/-- How many distinct processed ids are dependencies of `x`. -/
def countProcessed (g : List (TaskId × List TaskId)) (o : List TaskId) (x : TaskId) : ℤ :=
  (((o.filter (fun u => (gdepsOf g x).contains u)).length : ℕ) : ℤ)

theorem initDeg_eq_presentDeps_length (g : List (TaskId × List TaskId)) (x : TaskId) :
    initDeg g x = ((presentDepsOf g x).length : ℤ) := by
  rw [initDeg, presentDepsOf, List.countP_eq_length_filter]

theorem countProcessed_append_one (g : List (TaskId × List TaskId)) (o : List TaskId)
    (c x : TaskId) :
    countProcessed g (o ++ [c]) x =
      countProcessed g o x + (if (gdepsOf g x).contains c then 1 else 0) := by
  unfold countProcessed
  rw [List.filter_append]
  have hfc : ([c].filter (fun u => (gdepsOf g x).contains u)) =
      if (gdepsOf g x).contains c then [c] else [] := by
    rw [List.filter_cons]
    by_cases hc : (gdepsOf g x).contains c
    · rw [if_pos hc, if_pos hc]
      rfl
    · rw [if_neg hc, if_neg hc]
      rfl
  rw [hfc, List.length_append]
  by_cases hc : (gdepsOf g x).contains c
  · rw [if_pos hc, if_pos hc]
    push_cast
    simp
  · rw [if_neg hc, if_neg hc]
    push_cast
    simp

theorem mem_entry_of_key {g : List (TaskId × List TaskId)} (hk : (keysG g).Nodup)
    {x : TaskId} (hx : x ∈ keysG g) : (x, gdepsOf g x) ∈ g := by
  obtain ⟨v, hv⟩ := lookupL_isSome hx
  have : gdepsOf g x = v := by rw [gdepsOf, hv]; rfl
  rw [this]
  exact mem_of_lookupL hv

theorem filterMap_if_eq_map_filter {α : Type} (c : TaskId × α → Prop) [DecidablePred c]
    (l : List (TaskId × α)) :
    l.filterMap (fun p => if c p then some p.1 else none) =
      (l.filter (fun p => decide (c p))).map Prod.fst := by
  induction l with
  | nil => rfl
  | cons p l ih =>
    rw [List.filterMap_cons, List.filter_cons]
    by_cases hc : c p
    · simp [hc, ih]
    · simp [hc, ih]

/-- What one Kahn iteration's inner loop does, stated against the degrees at
the start of the iteration: every node whose dependency list mentions
`current` is decremented once, everything else is untouched, and the nodes
hitting zero are appended to the queue in graph order. -/
theorem decrementFor_spec (g : List (TaskId × List TaskId)) (current : TaskId)
    (hk : (keysG g).Nodup) :
    ∀ (degs : List (TaskId × ℤ)) (q : List TaskId),
      (∀ p ∈ g, p.1 ∈ keysG degs) →
      keysG (decrementFor g current (degs, q)).1 = keysG degs ∧
      (∀ x, x ∉ keysG g → lookupL (decrementFor g current (degs, q)).1 x = lookupL degs x) ∧
      (∀ p ∈ g, lookupL (decrementFor g current (degs, q)).1 p.1 =
        (if p.2.contains current then some ((lookupL degs p.1).getD 0 - 1)
         else lookupL degs p.1)) ∧
      (decrementFor g current (degs, q)).2 = q ++ g.filterMap (fun p =>
        if p.2.contains current ∧ (lookupL degs p.1).getD 0 - 1 = 0
        then some p.1 else none) := by
  unfold decrementFor
  induction g with
  | nil =>
    intro degs q _
    exact ⟨rfl, fun x _ => rfl, fun p hp => absurd hp (List.not_mem_nil p), by simp⟩
  | cons p g ih =>
    intro degs q hpres
    have hknd : (keysG g).Nodup ∧ p.1 ∉ keysG g := by
      rw [keysG, List.map_cons, List.nodup_cons] at hk
      exact ⟨hk.2, hk.1⟩
    rw [List.foldl_cons]
    by_cases hc : p.2.contains current
    · rw [if_pos hc]
      have hp1 : p.1 ∈ keysG degs := hpres p (List.mem_cons_self _ _)
      have hkeys1 : keysG (dictUpsert degs p.1 ((lookupL degs p.1).getD 0 - 1)) = keysG degs :=
        keysG_dictUpsert_mem _ hp1
      obtain ⟨hK, hOut, hIn, hQ⟩ := ih hknd.1
        (dictUpsert degs p.1 ((lookupL degs p.1).getD 0 - 1))
        (if (lookupL degs p.1).getD 0 - 1 = 0 then q ++ [p.1] else q)
        (fun p' hp' => by rw [hkeys1]; exact hpres p' (List.mem_cons_of_mem _ hp'))
      refine ⟨by rw [hK, hkeys1], ?_, ?_, ?_⟩
      · intro x hx
        rw [keysG, List.map_cons, List.mem_cons, not_or] at hx
        rw [hOut x hx.2, lookupL_dictUpsert_ne _ hx.1]
      · intro p' hp'
        rcases List.mem_cons.mp hp' with h1 | h1
        · subst h1
          rw [hOut p'.1 hknd.2, lookupL_dictUpsert_self, if_pos hc]
        · have hne : p'.1 ≠ p.1 := by
            intro hc2
            apply hknd.2
            rw [← hc2, keysG, List.mem_map]
            exact ⟨p', h1, rfl⟩
          rw [hIn p' h1, lookupL_dictUpsert_ne _ hne]
      · rw [hQ, List.filterMap_cons]
        have hcong : ∀ p' ∈ g,
            (if p'.2.contains current ∧
                (lookupL (dictUpsert degs p.1 ((lookupL degs p.1).getD 0 - 1)) p'.1).getD 0
                  - 1 = 0
              then some p'.1 else none) =
            (if p'.2.contains current ∧ (lookupL degs p'.1).getD 0 - 1 = 0
             then some p'.1 else none) := by
          intro p' h1
          have hne : p'.1 ≠ p.1 := by
            intro hc2
            apply hknd.2
            rw [← hc2, keysG, List.mem_map]
            exact ⟨p', h1, rfl⟩
          rw [lookupL_dictUpsert_ne _ hne]
        rw [List.filterMap_congr hcong]
        by_cases hz : (lookupL degs p.1).getD 0 - 1 = 0
        · rw [if_pos hz, if_pos ⟨hc, hz⟩, List.append_assoc]
          rfl
        · rw [if_neg hz, if_neg (fun hco => hz hco.2)]
    · rw [if_neg hc]
      obtain ⟨hK, hOut, hIn, hQ⟩ := ih hknd.1 degs q
        (fun p' hp' => hpres p' (List.mem_cons_of_mem _ hp'))
      refine ⟨hK, ?_, ?_, ?_⟩
      · intro x hx
        rw [keysG, List.map_cons, List.mem_cons, not_or] at hx
        exact hOut x hx.2
      · intro p' hp'
        rcases List.mem_cons.mp hp' with h1 | h1
        · subst h1
          rw [hOut p'.1 hknd.2, if_neg hc]
        · exact hIn p' h1
      · rw [hQ, List.filterMap_cons, if_neg (fun hco => hc hco.1)]

/-- The ids appended to the queue during the iteration that processes
`current`, starting from degree map `degs`. -/
def newlyOf (g : List (TaskId × List TaskId)) (current : TaskId)
    (degs : List (TaskId × ℤ)) : List TaskId :=
  g.filterMap (fun p =>
    if p.2.contains current ∧ (lookupL degs p.1).getD 0 - 1 = 0 then some p.1 else none)

theorem mem_newlyOf {g : List (TaskId × List TaskId)} {current : TaskId}
    {degs : List (TaskId × ℤ)} (hk : (keysG g).Nodup) {x : TaskId} :
    x ∈ newlyOf g current degs ↔
      x ∈ keysG g ∧ (gdepsOf g x).contains current = true ∧ lookupD degs x = 1 := by
  unfold newlyOf
  rw [List.mem_filterMap]
  constructor
  · rintro ⟨p, hp, hcond⟩
    split_ifs at hcond with hco
    · cases hcond
      have hxk : p.1 ∈ keysG g := by
        rw [keysG, List.mem_map]
        exact ⟨p, hp, rfl⟩
      have hg : gdepsOf g p.1 = p.2 := by
        rw [gdepsOf, lookupL_of_mem_nodup hk hp]
        rfl
      refine ⟨hxk, by rw [hg]; exact hco.1, ?_⟩
      have h2 : (lookupL degs p.1).getD 0 - 1 = 0 := hco.2
      show (lookupL degs p.1).getD 0 = 1
      omega
  · rintro ⟨hxk, hdep, hdeg⟩
    refine ⟨(x, gdepsOf g x), mem_entry_of_key hk hxk, ?_⟩
    have hco : ((x, gdepsOf g x) : TaskId × List TaskId).2.contains current = true ∧
        (lookupL degs ((x, gdepsOf g x) : TaskId × List TaskId).1).getD 0 - 1 = 0 := by
      refine ⟨hdep, ?_⟩
      show (lookupL degs x).getD 0 - 1 = 0
      have h2 : (lookupL degs x).getD 0 = 1 := hdeg
      omega
    rw [if_pos hco]

theorem newlyOf_nodup {g : List (TaskId × List TaskId)} (current : TaskId)
    (degs : List (TaskId × ℤ)) (hk : (keysG g).Nodup) :
    (newlyOf g current degs).Nodup := by
  unfold newlyOf
  rw [filterMap_if_eq_map_filter]
  exact hk.sublist ((List.filter_sublist g).map Prod.fst)

/-- One Kahn iteration preserves the loop invariants: the processed list plus
the queue stays duplicate-free inside the key set, degrees of
finished/queued nodes stay ≤ 0, degrees of untouched nodes stay > 0, and
every degree drops by exactly the indicator of "depends on `current`". -/
theorem kahn_step (g : List (TaskId × List TaskId)) (hk : (keysG g).Nodup)
    (current : TaskId) (rest : List TaskId) (degrees : List (TaskId × ℤ))
    (ordered : List TaskId)
    (A1 : (ordered ++ current :: rest).Nodup)
    (A2 : ∀ x ∈ ordered ++ current :: rest, x ∈ keysG g)
    (A3 : degrees.map Prod.fst = keysG g)
    (A4 : ∀ x ∈ keysG g, x ∉ ordered → x ∉ current :: rest → 0 < lookupD degrees x)
    (A5 : ∀ x, x ∈ ordered ∨ x ∈ current :: rest → lookupD degrees x ≤ 0) :
    ((ordered ++ [current]) ++ (decrementFor g current (degrees, rest)).2).Nodup ∧
    (∀ x ∈ (ordered ++ [current]) ++ (decrementFor g current (degrees, rest)).2,
      x ∈ keysG g) ∧
    (decrementFor g current (degrees, rest)).1.map Prod.fst = keysG g ∧
    (∀ x ∈ keysG g, x ∉ ordered ++ [current] →
      x ∉ (decrementFor g current (degrees, rest)).2 →
      0 < lookupD (decrementFor g current (degrees, rest)).1 x) ∧
    (∀ x, x ∈ ordered ++ [current] ∨ x ∈ (decrementFor g current (degrees, rest)).2 →
      lookupD (decrementFor g current (degrees, rest)).1 x ≤ 0) ∧
    (∀ x ∈ keysG g, lookupD (decrementFor g current (degrees, rest)).1 x =
      lookupD degrees x - (if (gdepsOf g x).contains current then 1 else 0)) ∧
    (decrementFor g current (degrees, rest)).2 = rest ++ newlyOf g current degrees := by
  obtain ⟨hK, hOut, hIn, hQ⟩ := decrementFor_spec g current hk degrees rest
    (fun p hp => by rw [show keysG degrees = degrees.map Prod.fst from rfl, A3, keysG,
      List.mem_map]; exact ⟨p, hp, rfl⟩)
  have hKeq : keysG (decrementFor g current (degrees, rest)).1 = keysG g := by
    rw [hK]
    exact A3
  have hQ' : (decrementFor g current (degrees, rest)).2 = rest ++ newlyOf g current degrees := hQ
  have hlook : ∀ x ∈ keysG g, lookupD (decrementFor g current (degrees, rest)).1 x =
      lookupD degrees x - (if (gdepsOf g x).contains current then 1 else 0) := by
    intro x hx
    have hent : lookupL (decrementFor g current (degrees, rest)).1 x =
        if (gdepsOf g x).contains current = true then some ((lookupL degrees x).getD 0 - 1)
        else lookupL degrees x := hIn (x, gdepsOf g x) (mem_entry_of_key hk hx)
    by_cases hc : (gdepsOf g x).contains current
    · rw [if_pos hc] at hent ⊢
      show (lookupL (decrementFor g current (degrees, rest)).1 x).getD 0 =
        (lookupL degrees x).getD 0 - 1
      rw [hent]
      rfl
    · rw [if_neg hc] at hent ⊢
      show (lookupL (decrementFor g current (degrees, rest)).1 x).getD 0 =
        (lookupL degrees x).getD 0 - 0
      rw [hent]
      omega
  have hnewmem : ∀ x ∈ newlyOf g current degrees,
      x ∈ keysG g ∧ x ∉ ordered ∧ x ∉ current :: rest := by
    intro x hx
    obtain ⟨hxk, _, hdeg⟩ := (mem_newlyOf hk).mp hx
    have h1 : ¬ (x ∈ ordered ∨ x ∈ current :: rest) := by
      intro hmem
      have := A5 x hmem
      omega
    rw [not_or] at h1
    exact ⟨hxk, h1.1, h1.2⟩
  have hnewzero : ∀ x ∈ newlyOf g current degrees,
      lookupD (decrementFor g current (degrees, rest)).1 x = 0 := by
    intro x hx
    obtain ⟨hxk, hdep, hdeg⟩ := (mem_newlyOf hk).mp hx
    rw [hlook x hxk, if_pos hdep, hdeg]
    decide
  refine ⟨?_, ?_, by rw [show (decrementFor g current (degrees, rest)).1.map Prod.fst =
    keysG (decrementFor g current (degrees, rest)).1 from rfl, hKeq], ?_, ?_, hlook, hQ'⟩
  · rw [hQ', ← List.append_assoc]
    rw [List.nodup_append]
    refine ⟨?_, newlyOf_nodup current degrees hk, ?_⟩
    · have : ordered ++ [current] ++ rest = ordered ++ current :: rest := by
        rw [List.append_assoc]
        rfl
      rw [this]
      exact A1
    · intro x hx
      have hx2 : x ∈ ordered ++ current :: rest := by
        rcases List.mem_append.mp hx with h1 | h1
        · rcases List.mem_append.mp h1 with h2 | h2
          · exact List.mem_append.mpr (Or.inl h2)
          · exact List.mem_append.mpr (Or.inr (by
              rw [List.mem_singleton] at h2
              rw [h2]
              exact List.mem_cons_self _ _))
        · exact List.mem_append.mpr (Or.inr (List.mem_cons_of_mem _ h1))
      intro hxn
      obtain ⟨_, hno, hnq⟩ := hnewmem x hxn
      rcases List.mem_append.mp hx2 with h1 | h1
      · exact hno h1
      · exact hnq h1
  · intro x hx
    rcases List.mem_append.mp hx with h1 | h1
    · rcases List.mem_append.mp h1 with h2 | h2
      · exact A2 x (List.mem_append.mpr (Or.inl h2))
      · rw [List.mem_singleton] at h2
        exact A2 x (List.mem_append.mpr (Or.inr (h2 ▸ List.mem_cons_self _ _)))
    · rw [hQ'] at h1
      rcases List.mem_append.mp h1 with h2 | h2
      · exact A2 x (List.mem_append.mpr (Or.inr (List.mem_cons_of_mem _ h2)))
      · exact (hnewmem x h2).1
  · intro x hxk hxo hxq
    have hxo0 : x ∉ ordered := fun hc => hxo (List.mem_append.mpr (Or.inl hc))
    have hxc : x ≠ current := fun hc =>
      hxo (List.mem_append.mpr (Or.inr (by rw [hc]; exact List.mem_singleton.mpr rfl)))
    have hxr : x ∉ rest := fun hc => hxq (by rw [hQ']; exact List.mem_append.mpr (Or.inl hc))
    have hxn : x ∉ newlyOf g current degrees := fun hc =>
      hxq (by rw [hQ']; exact List.mem_append.mpr (Or.inr hc))
    have hold : 0 < lookupD degrees x := A4 x hxk hxo0
      (by rw [List.mem_cons, not_or]; exact ⟨hxc, hxr⟩)
    rw [hlook x hxk]
    by_cases hc : (gdepsOf g x).contains current
    · rw [if_pos hc]
      have hne1 : lookupD degrees x ≠ 1 := by
        intro hc1
        exact hxn ((mem_newlyOf hk).mpr ⟨hxk, hc, hc1⟩)
      omega
    · rw [if_neg hc]
      omega
  · intro x hx
    have hxk : x ∈ keysG g := by
      rcases hx with h1 | h1
      · rcases List.mem_append.mp h1 with h2 | h2
        · exact A2 x (List.mem_append.mpr (Or.inl h2))
        · rw [List.mem_singleton] at h2
          exact A2 x (List.mem_append.mpr (Or.inr (h2 ▸ List.mem_cons_self _ _)))
      · rw [hQ'] at h1
        rcases List.mem_append.mp h1 with h2 | h2
        · exact A2 x (List.mem_append.mpr (Or.inr (List.mem_cons_of_mem _ h2)))
        · exact (hnewmem x h2).1
    by_cases hnew : x ∈ newlyOf g current degrees
    · rw [hnewzero x hnew]
    · have hmem : x ∈ ordered ∨ x ∈ current :: rest := by
        rcases hx with h1 | h1
        · rcases List.mem_append.mp h1 with h2 | h2
          · exact Or.inl h2
          · rw [List.mem_singleton] at h2
            exact Or.inr (h2 ▸ List.mem_cons_self _ _)
        · rw [hQ'] at h1
          rcases List.mem_append.mp h1 with h2 | h2
          · exact Or.inr (List.mem_cons_of_mem _ h2)
          · exact absurd h2 hnew
      have hold := A5 x hmem
      rw [hlook x hxk]
      by_cases hc : (gdepsOf g x).contains current
      · rw [if_pos hc]
        omega
      · rw [if_neg hc]
        omega

theorem length_le_of_nodup_subset {l m : List TaskId} (h : l.Nodup)
    (hs : ∀ x ∈ l, x ∈ m) : l.length ≤ m.length := by
  calc l.length = l.toFinset.card := (List.toFinset_card_of_nodup h).symm
  _ ≤ m.toFinset.card := Finset.card_le_card
      (fun x hx => List.mem_toFinset.mpr (hs x (List.mem_toFinset.mp hx)))
  _ ≤ m.length := List.toFinset_card_le m

/-- Invariant of the Kahn loop: every dequeued node, plus the implicit
processed prefix `acc`, has all of its present dependencies earlier. -/
def OrdOKr (g : List (TaskId × List TaskId)) : List TaskId → List TaskId → Prop
  | _, [] => True
  | acc, x :: xs => (∀ d ∈ presentDepsOf g x, d ∈ acc) ∧ OrdOKr g (acc ++ [x]) xs

theorem ordOKr_append {g : List (TaskId × List TaskId)} :
    ∀ {l acc : List TaskId}, OrdOKr g acc l → ∀ {y : TaskId},
      (∀ d ∈ presentDepsOf g y, d ∈ acc ++ l) → OrdOKr g acc (l ++ [y]) := by
  intro l
  induction l with
  | nil =>
    intro acc _ y hy
    exact ⟨fun d hd => by simpa using hy d hd, trivial⟩
  | cons x xs ih =>
    intro acc h y hy
    refine ⟨h.1, ih h.2 ?_⟩
    intro d hd
    have h1 := hy d hd
    rw [List.append_assoc]
    simpa using h1

theorem ordOKr_mem_take {g : List (TaskId × List TaskId)} :
    ∀ (l acc : List TaskId), OrdOKr g acc l →
      ∀ j, j < l.length → ∀ d ∈ presentDepsOf g (l.getD j ""),
        d ∈ acc ∨ d ∈ l.take j := by
  intro l
  induction l with
  | nil =>
    intro acc _ j hj
    simp at hj
  | cons x xs ih =>
    intro acc h j hj d hd
    cases j with
    | zero => exact Or.inl (h.1 d (by simpa using hd))
    | succ j =>
      rcases ih (acc ++ [x]) h.2 j (by simpa using hj) d (by simpa using hd) with h1 | h1
      · rcases List.mem_append.mp h1 with h2 | h2
        · exact Or.inl h2
        · rw [List.mem_singleton] at h2
          exact Or.inr (by rw [h2, List.take_succ_cons]; exact List.mem_cons_self _ _)
      · exact Or.inr (by rw [List.take_succ_cons]; exact List.mem_cons_of_mem _ h1)

theorem presentDeps_subset_of_count {g : List (TaskId × List TaskId)} {x : TaskId}
    {o : List TaskId} (hnd : (presentDepsOf g x).Nodup) (ho : o.Nodup)
    (hsub : ∀ u ∈ o, u ∈ keysG g)
    (heq : countProcessed g o x = initDeg g x) :
    ∀ d ∈ presentDepsOf g x, d ∈ o := by
  have hA : (o.filter (fun u => (gdepsOf g x).contains u)).Nodup := ho.filter _
  have hcard : (o.filter (fun u => (gdepsOf g x).contains u)).length =
      (presentDepsOf g x).length := by
    have := heq
    rw [initDeg_eq_presentDeps_length] at this
    unfold countProcessed at this
    exact_mod_cast this
  have hAB : ∀ u ∈ o.filter (fun u => (gdepsOf g x).contains u), u ∈ presentDepsOf g x := by
    intro u hu
    rw [List.mem_filter] at hu
    rw [presentDepsOf, List.mem_filter]
    exact ⟨contains_iff_mem.mp hu.2, by rw [contains_iff_mem]; exact hsub u hu.1⟩
  have hfin : (o.filter (fun u => (gdepsOf g x).contains u)).toFinset =
      (presentDepsOf g x).toFinset := by
    apply Finset.eq_of_subset_of_card_le
    · intro u hu
      exact List.mem_toFinset.mpr (hAB u (List.mem_toFinset.mp hu))
    · rw [List.toFinset_card_of_nodup hnd, List.toFinset_card_of_nodup hA, hcard]
  intro d hd
  have : d ∈ (o.filter (fun u => (gdepsOf g x).contains u)).toFinset := by
    rw [hfin]
    exact List.mem_toFinset.mpr hd
  exact List.mem_of_mem_filter (List.mem_toFinset.mp this)

theorem presentDeps_exists_not_mem {g : List (TaskId × List TaskId)} {x : TaskId}
    {o : List TaskId} (hnd : (presentDepsOf g x).Nodup)
    (hlt : countProcessed g o x < initDeg g x) :
    ∃ d ∈ presentDepsOf g x, d ∉ o := by
  by_contra hcon
  push_neg at hcon
  have hBA : (presentDepsOf g x).toFinset ⊆
      (o.filter (fun u => (gdepsOf g x).contains u)).toFinset := by
    intro d hd
    rw [List.mem_toFinset] at hd
    rw [List.mem_toFinset, List.mem_filter]
    refine ⟨hcon d hd, ?_⟩
    rw [presentDepsOf, List.mem_filter] at hd
    rw [contains_iff_mem]
    exact hd.1
  have hle : (presentDepsOf g x).length ≤
      (o.filter (fun u => (gdepsOf g x).contains u)).length := by
    calc (presentDepsOf g x).length = (presentDepsOf g x).toFinset.card :=
        (List.toFinset_card_of_nodup hnd).symm
    _ ≤ (o.filter (fun u => (gdepsOf g x).contains u)).toFinset.card :=
        Finset.card_le_card hBA
    _ ≤ _ := List.toFinset_card_le _
  rw [initDeg_eq_presentDeps_length] at hlt
  unfold countProcessed at hlt
  have : ((presentDepsOf g x).length : ℤ) ≤
      ((o.filter (fun u => (gdepsOf g x).contains u)).length : ℤ) := by exact_mod_cast hle
  omega

/-- The Kahn loop keeps its output duplicate-free and inside the key set
(no invariants beyond the degree bookkeeping are needed). -/
theorem kahnA (g : List (TaskId × List TaskId)) (hk : (keysG g).Nodup) :
    ∀ (fuel : Nat) (queue : List TaskId) (degrees : List (TaskId × ℤ))
      (ordered : List TaskId),
      (ordered ++ queue).Nodup →
      (∀ x ∈ ordered ++ queue, x ∈ keysG g) →
      degrees.map Prod.fst = keysG g →
      (∀ x ∈ keysG g, x ∉ ordered → x ∉ queue → 0 < lookupD degrees x) →
      (∀ x, x ∈ ordered ∨ x ∈ queue → lookupD degrees x ≤ 0) →
      (kahnLoop g fuel queue degrees ordered).Nodup ∧
      (∀ x ∈ kahnLoop g fuel queue degrees ordered, x ∈ keysG g) ∧
      (∀ x ∈ ordered, x ∈ kahnLoop g fuel queue degrees ordered) := by
  intro fuel
  induction fuel with
  | zero =>
    intro queue degrees ordered A1 A2 _ _ _
    rw [kahnLoop]
    exact ⟨A1.sublist (List.sublist_append_left _ _),
      fun x hx => A2 x (List.mem_append.mpr (Or.inl hx)), fun x hx => hx⟩
  | succ fuel ih =>
    intro queue degrees ordered A1 A2 A3 A4 A5
    cases queue with
    | nil =>
      rw [kahnLoop]
      exact ⟨A1.sublist (List.sublist_append_left _ _),
        fun x hx => A2 x (List.mem_append.mpr (Or.inl hx)), fun x hx => hx⟩
    | cons current rest =>
      rw [kahnLoop]
      obtain ⟨B1, B2, B3, B4, B5, _, _⟩ :=
        kahn_step g hk current rest degrees ordered A1 A2 A3 A4 A5
      obtain ⟨C1, C2, C3⟩ := ih _ _ _ B1 B2 B3 B4 B5
      exact ⟨C1, C2, fun x hx =>
        C3 x (List.mem_append.mpr (Or.inl hx))⟩

/-- Full Kahn-loop invariant, assuming every node's present-dependency list
is duplicate-free: the loop runs to queue exhaustion within its fuel, its
output is dependency-ordered, and any key it never outputs retains an
unprocessed present dependency. -/
theorem kahnB (g : List (TaskId × List TaskId)) (hk : (keysG g).Nodup)
    (HND : ∀ x ∈ keysG g, (presentDepsOf g x).Nodup) :
    ∀ (fuel : Nat) (queue : List TaskId) (degrees : List (TaskId × ℤ))
      (ordered : List TaskId),
      (ordered ++ queue).Nodup →
      (∀ x ∈ ordered ++ queue, x ∈ keysG g) →
      degrees.map Prod.fst = keysG g →
      (∀ x ∈ keysG g, x ∉ ordered → x ∉ queue → 0 < lookupD degrees x) →
      (∀ x, x ∈ ordered ∨ x ∈ queue → lookupD degrees x ≤ 0) →
      (keysG g).length + 1 ≤ fuel + ordered.length →
      OrdOKr g [] ordered →
      (∀ x ∈ queue, ∀ d ∈ presentDepsOf g x, d ∈ ordered) →
      (∀ x ∈ keysG g, lookupD degrees x = initDeg g x - countProcessed g ordered x) →
      OrdOKr g [] (kahnLoop g fuel queue degrees ordered) ∧
      (∀ x ∈ keysG g, x ∉ kahnLoop g fuel queue degrees ordered →
        ∃ d ∈ presentDepsOf g x, d ∉ kahnLoop g fuel queue degrees ordered) := by
  intro fuel
  induction fuel with
  | zero =>
    intro queue degrees ordered A1 A2 _ _ _ A0 _ _ _
    exfalso
    have h1 : ordered.length ≤ (keysG g).length :=
      length_le_of_nodup_subset (A1.sublist (List.sublist_append_left _ _))
        (fun x hx => A2 x (List.mem_append.mpr (Or.inl hx)))
    omega
  | succ fuel ih =>
    intro queue degrees ordered A1 A2 A3 A4 A5 A0 A6 A7 A8
    cases queue with
    | nil =>
      rw [kahnLoop]
      refine ⟨A6, ?_⟩
      intro x hxk hxo
      have hdeg : 0 < lookupD degrees x :=
        A4 x hxk hxo (List.not_mem_nil x)
      rw [A8 x hxk] at hdeg
      exact presentDeps_exists_not_mem (HND x hxk) (by omega)
    | cons current rest =>
      rw [kahnLoop]
      obtain ⟨B1, B2, B3, B4, B5, B6, B7⟩ :=
        kahn_step g hk current rest degrees ordered A1 A2 A3 A4 A5
      have hnodO : (ordered ++ [current]).Nodup :=
        B1.sublist (List.sublist_append_left _ _)
      have hsubO : ∀ u ∈ ordered ++ [current], u ∈ keysG g :=
        fun u hu => B2 u (List.mem_append.mpr (Or.inl hu))
      have A8' : ∀ x ∈ keysG g,
          lookupD (decrementFor g current (degrees, rest)).1 x =
            initDeg g x - countProcessed g (ordered ++ [current]) x := by
        intro x hxk
        rw [B6 x hxk, A8 x hxk, countProcessed_append_one]
        omega
      have A7' : ∀ x ∈ (decrementFor g current (degrees, rest)).2,
          ∀ d ∈ presentDepsOf g x, d ∈ ordered ++ [current] := by
        intro x hx d hd
        rw [B7] at hx
        rcases List.mem_append.mp hx with h1 | h1
        · exact List.mem_append.mpr (Or.inl
            (A7 x (List.mem_cons_of_mem _ h1) d hd))
        · obtain ⟨hxk, hdep, hdeg⟩ := (mem_newlyOf hk).mp h1
          have hcount : countProcessed g (ordered ++ [current]) x = initDeg g x := by
            rw [countProcessed_append_one, if_pos hdep]
            have := A8 x hxk
            omega
          exact presentDeps_subset_of_count (HND x hxk) hnodO hsubO hcount d hd
      have A6' : OrdOKr g [] (ordered ++ [current]) := by
        apply ordOKr_append A6
        intro d hd
        simpa using A7 current (List.mem_cons_self _ _) d hd
      obtain ⟨C1, C2⟩ := ih _ _ _ B1 B2 B3 B4 B5
        (by simp only [List.length_append, List.length_singleton]; omega) A6' A7' A8'
      exact ⟨C1, C2⟩

/-! ## The pieces of `get_dependency_order`, named -/

def gdoDegrees (tasks : List Task) : List (TaskId × ℤ) :=
  (keysG (graphOf tasks)).map (fun k => (k, initDeg (graphOf tasks) k))

def gdoQueue (tasks : List Task) : List TaskId :=
  ((gdoDegrees tasks).filter (fun p => p.2 == 0)).map Prod.fst

def kahnOrderedIds (tasks : List Task) : List TaskId :=
  kahnLoop (graphOf tasks) ((keysG (graphOf tasks)).length + 1)
    (gdoQueue tasks) (gdoDegrees tasks) []

def remainingIdsOf (tasks : List Task) : List TaskId :=
  (keysG (graphOf tasks)).filter (fun k => !((kahnOrderedIds tasks).contains k))

theorem gdo_ordered_tasks_eq (tasks : List Task) :
    (get_dependency_order tasks).ordered_tasks =
      (kahnOrderedIds tasks).filterMap (fun i => lookupL (taskMapOf tasks) i) ++
      (remainingIdsOf tasks).filterMap (fun i => lookupL (taskMapOf tasks) i) := rfl

theorem gdoDegrees_keys (tasks : List Task) :
    (gdoDegrees tasks).map Prod.fst = keysG (graphOf tasks) := by
  unfold gdoDegrees
  rw [List.map_map]
  exact List.map_id _

theorem gdoDegrees_lookup (tasks : List Task) {k : TaskId}
    (hk : k ∈ keysG (graphOf tasks)) :
    lookupD (gdoDegrees tasks) k = initDeg (graphOf tasks) k := by
  have hnd : (keysG (gdoDegrees tasks)).Nodup := by
    show ((gdoDegrees tasks).map Prod.fst).Nodup
    rw [gdoDegrees_keys]
    exact keysG_buildDict_nodup _ _
  have hmem : (k, initDeg (graphOf tasks) k) ∈ gdoDegrees tasks := by
    unfold gdoDegrees
    rw [List.mem_map]
    exact ⟨k, hk, rfl⟩
  unfold lookupD
  rw [lookupL_of_mem_nodup hnd hmem]
  rfl

theorem mem_gdoQueue_iff (tasks : List Task) (x : TaskId) :
    x ∈ gdoQueue tasks ↔ x ∈ keysG (graphOf tasks) ∧ initDeg (graphOf tasks) x = 0 := by
  unfold gdoQueue
  rw [List.mem_map]
  constructor
  · rintro ⟨p, hp, rfl⟩
    rw [List.mem_filter] at hp
    obtain ⟨hp1, hp2⟩ := hp
    unfold gdoDegrees at hp1
    rw [List.mem_map] at hp1
    obtain ⟨k, hk, hpk⟩ := hp1
    rw [← hpk]
    rw [← hpk] at hp2
    refine ⟨hk, ?_⟩
    simpa using hp2
  · rintro ⟨hxk, hx0⟩
    refine ⟨(x, initDeg (graphOf tasks) x), ?_, rfl⟩
    rw [List.mem_filter]
    refine ⟨by unfold gdoDegrees; rw [List.mem_map]; exact ⟨x, hxk, rfl⟩, by simpa using hx0⟩

theorem gdoQueue_nodup (tasks : List Task) : (gdoQueue tasks).Nodup := by
  have h1 : List.Sublist (gdoQueue tasks) ((gdoDegrees tasks).map Prod.fst) :=
    List.Sublist.map Prod.fst (List.filter_sublist (gdoDegrees tasks))
  rw [gdoDegrees_keys] at h1
  exact (keysG_buildDict_nodup depsOf tasks).sublist h1

theorem initDeg_nonneg (g : List (TaskId × List TaskId)) (x : TaskId) :
    0 ≤ initDeg g x := by
  unfold initDeg
  positivity

theorem countProcessed_nil (g : List (TaskId × List TaskId)) (x : TaskId) :
    countProcessed g [] x = 0 := rfl

/-- The main perm/nodup facts about the dequeued part of the order. -/
theorem kahnOrderedIds_spec (tasks : List Task) :
    (kahnOrderedIds tasks).Nodup ∧
    (∀ x ∈ kahnOrderedIds tasks, x ∈ keysG (graphOf tasks)) := by
  have hk := keysG_buildDict_nodup depsOf tasks
  have h := kahnA (graphOf tasks) hk ((keysG (graphOf tasks)).length + 1)
    (gdoQueue tasks) (gdoDegrees tasks) []
    (by simpa using gdoQueue_nodup tasks)
    (by
      intro x hx
      rw [List.nil_append] at hx
      exact ((mem_gdoQueue_iff tasks x).mp hx).1)
    (gdoDegrees_keys tasks)
    (by
      intro x hxk _ hxq
      rw [gdoDegrees_lookup tasks hxk]
      have h0 := initDeg_nonneg (graphOf tasks) x
      have hne : initDeg (graphOf tasks) x ≠ 0 := by
        intro hc
        exact hxq ((mem_gdoQueue_iff tasks x).mpr ⟨hxk, hc⟩)
      omega)
    (by
      intro x hx
      rcases hx with hx | hx
      · exact absurd hx (List.not_mem_nil x)
      · obtain ⟨hxk, h0⟩ := (mem_gdoQueue_iff tasks x).mp hx
        rw [gdoDegrees_lookup tasks hxk, h0])
  exact ⟨h.1, h.2.1⟩

theorem perm_ext_nodup {l m : List TaskId} (hl : l.Nodup) (hm : m.Nodup)
    (h : ∀ x, x ∈ l ↔ x ∈ m) : l.Perm m :=
  (List.perm_ext_iff_of_nodup hl hm).mpr h

theorem orderedIds_append_remaining_perm (tasks : List Task) :
    ((kahnOrderedIds tasks) ++ (remainingIdsOf tasks)).Perm (keysG (graphOf tasks)) := by
  obtain ⟨hnd, hsub⟩ := kahnOrderedIds_spec tasks
  have hkeys := keysG_buildDict_nodup depsOf tasks
  have h1 : (kahnOrderedIds tasks).Perm
      ((keysG (graphOf tasks)).filter (fun k => (kahnOrderedIds tasks).contains k)) := by
    apply perm_ext_nodup hnd (hkeys.filter _)
    intro x
    rw [List.mem_filter]
    constructor
    · intro hx
      exact ⟨hsub x hx, contains_iff_mem.mpr hx⟩
    · rintro ⟨_, hx⟩
      exact contains_iff_mem.mp hx
  have h2 := List.filter_append_perm
    (fun k => (kahnOrderedIds tasks).contains k) (keysG (graphOf tasks))
  exact (h1.append (List.Perm.refl _)).trans h2

theorem filterMap_lookup_keys {α : Type} (l : List (TaskId × α)) (h : (keysG l).Nodup) :
    (keysG l).filterMap (fun i => lookupL l i) = l.map Prod.snd := by
  induction l with
  | nil => rfl
  | cons p l ih =>
    have hh : keysG (p :: l) = p.1 :: keysG l := rfl
    rw [hh, List.filterMap_cons]
    rw [hh, List.nodup_cons] at h
    rw [lookupL_cons, if_pos rfl]
    have hcong : ∀ j ∈ keysG l, lookupL (p :: l) j = lookupL l j := by
      intro j hj
      rw [lookupL_cons, if_neg (fun hc => h.1 (by rw [hc]; exact hj))]
    rw [List.filterMap_congr hcong, ih h.2]
    rfl

theorem tasks_eq_map_snd {tasks : List Task} (hnd : (presentIds tasks).Nodup)
    (hall : ∀ t ∈ tasks, taskIdOf t ≠ none) :
    (taskMapOf tasks).map Prod.snd = tasks := by
  rw [taskMapOf, buildDict_nodup_eq (fun t => t) hnd]
  induction tasks with
  | nil => rfl
  | cons t ts ih =>
    rw [List.filterMap_cons]
    cases ht : taskIdOf t with
    | none => exact absurd ht (hall t (List.mem_cons_self _ _))
    | some i =>
      simp only [Option.map_some']
      rw [List.map_cons]
      rw [ih (by rw [presentIds_cons_some ht, List.nodup_cons] at hnd; exact hnd.2)
        (fun u hu => hall u (List.mem_cons_of_mem _ hu))]

/-- The permutation core shared by C5 and C10: with non-empty unique ids the
returned `ordered_tasks` is a permutation of the input. -/
theorem gdo_perm {tasks : List Task} (hnd : (presentIds tasks).Nodup)
    (hall : ∀ t ∈ tasks, taskIdOf t ≠ none) :
    (get_dependency_order tasks).ordered_tasks.Perm tasks := by
  rw [gdo_ordered_tasks_eq, ← List.filterMap_append]
  have hperm := orderedIds_append_remaining_perm tasks
  have h := hperm.filterMap (fun i => lookupL (taskMapOf tasks) i)
  rw [keysG_graphOf_eq_taskMapOf] at h
  have hknd : (keysG (taskMapOf tasks)).Nodup := keysG_buildDict_nodup (fun t => t) tasks
  rw [filterMap_lookup_keys _ hknd] at h
  rw [tasks_eq_map_snd hnd hall] at h
  exact h

theorem tasks_nodup_of_ids {tasks : List Task} (hnd : (presentIds tasks).Nodup)
    (hall : ∀ t ∈ tasks, taskIdOf t ≠ none) : tasks.Nodup := by
  induction tasks with
  | nil => exact List.nodup_nil
  | cons t ts ih =>
    cases ht : taskIdOf t with
    | none => exact absurd ht (hall t (List.mem_cons_self _ _))
    | some i =>
      rw [presentIds_cons_some ht, List.nodup_cons] at hnd
      refine List.nodup_cons.mpr ⟨?_, ih hnd.2 (fun u hu => hall u (List.mem_cons_of_mem _ hu))⟩
      intro hc
      exact hnd.1 (by rw [presentIds, List.mem_filterMap]; exact ⟨t, hc, ht⟩)

/-! ## Claims C5 and C10 -/

/-- Counterexample task for C5: no id at all. -/
def c5cex : Task := ⟨none, none, .absent, .absent, .absent, none⟩

/-- C5 counterexample: a task without an id is silently dropped from
`ordered_tasks` (it never enters `task_map`), so the output does not contain
every input task. -/
theorem C5_counterexample :
    c5cex ∈ [c5cex] ∧ (get_dependency_order [c5cex]).ordered_tasks = [] := by
  exact ⟨List.mem_singleton.mpr rfl, rfl⟩

/-- C5 (amended): for every input task list in which every task has a
non-empty id and ids are unique, `ordered_tasks` contains exactly the tasks of
the input list, merely reordered (a permutation). -/
theorem C5_ordered_tasks_exactly_input (tasks : List Task)
    (hall : ∀ t ∈ tasks, taskIdOf t ≠ none)
    (hnd : (presentIds tasks).Nodup) :
    (get_dependency_order tasks).ordered_tasks.Perm tasks :=
  gdo_perm hnd hall

/-- C5 witness: the spec's linear three-task example. -/
theorem C5_witness :
    (get_dependency_order
      [⟨some "1", none, .absent, .absent, .absent, some []⟩,
       ⟨some "2", none, .absent, .absent, .absent, some ["1"]⟩,
       ⟨some "3", none, .absent, .absent, .absent, some ["2"]⟩]).ordered_tasks.Perm
      [⟨some "1", none, .absent, .absent, .absent, some []⟩,
       ⟨some "2", none, .absent, .absent, .absent, some ["1"]⟩,
       ⟨some "3", none, .absent, .absent, .absent, some ["2"]⟩] :=
  C5_ordered_tasks_exactly_input _ (by decide) (by decide)

/-- C10: with non-empty unique ids, `ordered_tasks` contains each input task
exactly once — nothing is duplicated or dropped — even when the dependency
graph is cyclic (stuck tasks are appended from the remaining set). -/
theorem C10_each_task_exactly_once (tasks : List Task)
    (hall : ∀ t ∈ tasks, taskIdOf t ≠ none)
    (hnd : (presentIds tasks).Nodup) :
    (get_dependency_order tasks).ordered_tasks.length = tasks.length ∧
    ∀ t ∈ tasks, (get_dependency_order tasks).ordered_tasks.count t = 1 := by
  have hperm := gdo_perm hnd hall
  refine ⟨hperm.length_eq, ?_⟩
  intro t ht
  rw [hperm.count_eq]
  exact List.count_eq_one_of_mem (tasks_nodup_of_ids hnd hall) ht

/-- C10 witness: the spec's three-task cycle, where no task can ever be
dequeued. -/
theorem C10_witness :
    (get_dependency_order
      [⟨some "1", none, .absent, .absent, .absent, some ["2"]⟩,
       ⟨some "2", none, .absent, .absent, .absent, some ["3"]⟩,
       ⟨some "3", none, .absent, .absent, .absent, some ["1"]⟩]).ordered_tasks.length = 3 ∧
    ∀ t ∈ [(⟨some "1", none, .absent, .absent, .absent, some ["2"]⟩ : Task),
       ⟨some "2", none, .absent, .absent, .absent, some ["3"]⟩,
       ⟨some "3", none, .absent, .absent, .absent, some ["1"]⟩],
      (get_dependency_order
        [⟨some "1", none, .absent, .absent, .absent, some ["2"]⟩,
         ⟨some "2", none, .absent, .absent, .absent, some ["3"]⟩,
         ⟨some "3", none, .absent, .absent, .absent, some ["1"]⟩]).ordered_tasks.count t = 1 :=
  C10_each_task_exactly_once _ (by decide) (by decide)

/-! ## Bridging the claim-level graph and the code's graph dict -/

theorem edgeT_iff_edgeG {tasks : List Task} (hnd : (presentIds tasks).Nodup)
    (a b : TaskId) : edgeT tasks a b ↔ edgeG (graphOf tasks) a b := by
  constructor
  · rintro ⟨t, ht, hid, hdep, hpres⟩
    refine ⟨?_, ?_, ?_⟩
    · rw [graphOf, mem_keysG_buildDict, presentIds, List.mem_filterMap]
      exact ⟨t, ht, hid⟩
    · rw [graphOf, mem_keysG_buildDict]
      exact hpres
    · have hg : gdepsOf (graphOf tasks) a = depsOf t := by
        rw [gdepsOf, lookupL_graphOf, lookupL_taskMapOf hnd ht hid]
        rfl
      rw [hg]
      exact hdep
  · rintro ⟨ha, hb, hdep⟩
    rw [graphOf, mem_keysG_buildDict] at ha hb
    have ha' := ha
    rw [presentIds, List.mem_filterMap] at ha'
    obtain ⟨t, ht, hid⟩ := ha'
    have hg : gdepsOf (graphOf tasks) a = depsOf t := by
      rw [gdepsOf, lookupL_graphOf, lookupL_taskMapOf hnd ht hid]
      rfl
    rw [hg] at hdep
    exact ⟨t, ht, hid, hdep, hb⟩

theorem hasCycleT_iff_hasCycleG {tasks : List Task} (hnd : (presentIds tasks).Nodup) :
    HasCycleT tasks ↔ HasCycleG (graphOf tasks) := by
  unfold HasCycleT HasCycleG
  refine exists_congr fun x => ⟨?_, ?_⟩
  · exact Relation.TransGen.mono (fun a b h => (edgeT_iff_edgeG hnd a b).mp h)
  · exact Relation.TransGen.mono (fun a b h => (edgeT_iff_edgeG hnd a b).mpr h)

/-- A finite non-empty set in which every node has an outgoing edge staying in
the set contains a cycle (follow successors and apply the pigeonhole). -/
theorem cycle_of_successors {g : List (TaskId × List TaskId)} (S : List TaskId)
    (hne : S ≠ []) (hsucc : ∀ x ∈ S, ∃ d ∈ S, edgeG g x d) : HasCycleG g := by
  classical
  have hmem : ∀ x : {y // y ∈ S.toFinset}, ∃ d : {y // y ∈ S.toFinset},
      edgeG g x.val d.val := by
    rintro ⟨x, hx⟩
    obtain ⟨d, hd, he⟩ := hsucc x (List.mem_toFinset.mp hx)
    exact ⟨⟨d, List.mem_toFinset.mpr hd⟩, he⟩
  choose f hf using hmem
  obtain ⟨x0, hx0⟩ : ∃ x0, x0 ∈ S.toFinset := by
    cases S with
    | nil => exact absurd rfl hne
    | cons a l => exact ⟨a, by simp⟩
  have hstep : ∀ (x : {y // y ∈ S.toFinset}) (k : ℕ),
      Relation.TransGen (edgeG g) x.val (f^[k + 1] x).val := by
    intro x k
    induction k with
    | zero => exact Relation.TransGen.single (hf x)
    | succ k ihk =>
      rw [Function.iterate_succ_apply']
      exact ihk.tail (hf _)
  obtain ⟨m, n, hmn, heq⟩ := Finite.exists_ne_map_eq_of_infinite
    (fun k : ℕ => f^[k] ⟨x0, hx0⟩)
  have key : ∀ i j : ℕ, i < j → f^[i] ⟨x0, hx0⟩ = f^[j] ⟨x0, hx0⟩ → HasCycleG g := by
    intro i j hij hijeq
    have hiter : f^[(j - i - 1) + 1] (f^[i] ⟨x0, hx0⟩) = f^[i] ⟨x0, hx0⟩ := by
      rw [← Function.iterate_add_apply]
      have harith : (j - i - 1) + 1 + i = j := by omega
      rw [harith]
      exact hijeq.symm
    have hcyc := hstep (f^[i] ⟨x0, hx0⟩) (j - i - 1)
    rw [hiter] at hcyc
    exact ⟨(f^[i] ⟨x0, hx0⟩).val, hcyc⟩
  rcases Nat.lt_or_ge m n with h | h
  · exact key m n h heq
  · exact key n m (by omega) heq.symm

/-! ## The dependency-respecting order property of C1 -/

/-- `tj` is a dependency of `ti` (tj's id occurs in ti's dependency list). -/
def isDepOfB (ti tj : Task) : Bool :=
  match taskIdOf tj with
  | some b => (depsOf ti).contains b
  | none => false

/-- The output order respects dependencies: whenever the task at position `j`
is a dependency of the task at position `i`, it is placed earlier (`j < i`). -/
def RespectsDeps (out : List Task) : Prop :=
  ∀ i, i < out.length → ∀ j, j < out.length →
    isDepOfB (out.getD i default) (out.getD j default) = true → j < i

instance (out : List Task) : Decidable (RespectsDeps out) := by
  unfold RespectsDeps
  infer_instance

theorem getD_mem' {α : Type} (l : List α) (d : α) (i : ℕ) (h : i < l.length) :
    l.getD i d ∈ l := by
  rw [List.getD_eq_getElem l d h]
  exact List.getElem_mem h

theorem indexOf_lt_of_mem_take :
    ∀ (l : List TaskId) (i : ℕ) (b : TaskId), b ∈ l.take i → l.indexOf b < i := by
  intro l
  induction l with
  | nil => intro i b hb; simp at hb
  | cons x xs ih =>
    intro i b hb
    cases i with
    | zero => simp at hb
    | succ i =>
      rw [List.take_succ_cons] at hb
      by_cases hxb : x = b
      · rw [hxb, List.indexOf_cons_self]
        omega
      · rcases List.mem_cons.mp hb with h | h
        · exact absurd h.symm hxb
        · rw [List.indexOf_cons_ne _ hxb]
          have := ih i b h
          omega

theorem nodup_indexOf_getD :
    ∀ (l : List TaskId), l.Nodup → ∀ j, j < l.length → l.indexOf (l.getD j "") = j := by
  intro l
  induction l with
  | nil => intro _ j hj; simp at hj
  | cons x xs ih =>
    intro hnd j hj
    rw [List.nodup_cons] at hnd
    cases j with
    | zero =>
      rw [List.getD_cons_zero, List.indexOf_cons_self]
    | succ j =>
      rw [List.getD_cons_succ]
      have hjlen : j < xs.length := by simpa using hj
      have hmem : xs.getD j "" ∈ xs := getD_mem' xs "" j hjlen
      rw [List.indexOf_cons_ne _ (fun hc => hnd.1 (by rw [hc]; exact hmem)),
        ih hnd.2 j hjlen]

theorem filterMap_total_getD {α : Type} [Inhabited α] :
    ∀ (l : List TaskId) (f : TaskId → Option α), (∀ k ∈ l, (f k).isSome) →
      (l.filterMap f).length = l.length ∧
      ∀ i, i < l.length → f (l.getD i "") = some ((l.filterMap f).getD i default) := by
  intro l
  induction l with
  | nil => intro f _; exact ⟨rfl, fun i hi => absurd hi (by simp)⟩
  | cons k l ih =>
    intro f hf
    have hks : (f k).isSome := hf k (List.mem_cons_self _ _)
    obtain ⟨v, hv⟩ := Option.isSome_iff_exists.mp hks
    rw [List.filterMap_cons, hv]
    obtain ⟨ihlen, ihget⟩ := ih f (fun u hu => hf u (List.mem_cons_of_mem _ hu))
    constructor
    · rw [List.length_cons, List.length_cons, ihlen]
    · intro i hi
      cases i with
      | zero => rw [List.getD_cons_zero, List.getD_cons_zero, hv]
      | succ i =>
        rw [List.getD_cons_succ, List.getD_cons_succ]
        exact ihget i (by simpa using hi)

/-! ## Claim C1 -/

/-- C1 (amended): if every task has a non-empty unique id, no task's
dependency list repeats an id that is present in the input, and the
dependency graph restricted to present ids is acyclic, then `ordered_tasks`
places every task after each of its dependencies present in the input.
(Without the no-duplicate condition a task whose duplicated dependency
in-degree never reaches zero lands in the trailing remainder set, whose
iteration order guarantees nothing.) -/
theorem C1_order_respects_dependencies (tasks : List Task)
    (hall : ∀ t ∈ tasks, taskIdOf t ≠ none)
    (hnd : (presentIds tasks).Nodup)
    (hdnd : ∀ t ∈ tasks,
      ((depsOf t).filter (fun d => (presentIds tasks).contains d)).Nodup)
    (hacyc : ¬ HasCycleT tasks) :
    RespectsDeps (get_dependency_order tasks).ordered_tasks := by
  have hk : (keysG (graphOf tasks)).Nodup := keysG_buildDict_nodup depsOf tasks
  have hkeys_eq : keysG (graphOf tasks) = presentIds tasks := by
    rw [keysG_graphOf_eq_taskMapOf, keysG_taskMapOf_nodup hnd]
  have HND : ∀ x ∈ keysG (graphOf tasks), (presentDepsOf (graphOf tasks) x).Nodup := by
    intro x hx
    have hx' := hx
    rw [hkeys_eq, presentIds, List.mem_filterMap] at hx'
    obtain ⟨t, ht, hid⟩ := hx'
    have hg : gdepsOf (graphOf tasks) x = depsOf t := by
      rw [gdepsOf, lookupL_graphOf, lookupL_taskMapOf hnd ht hid]
      rfl
    rw [presentDepsOf, hg, hkeys_eq]
    exact hdnd t ht
  -- run the full invariant
  obtain ⟨hOrd, hRem⟩ := kahnB (graphOf tasks) hk HND
    ((keysG (graphOf tasks)).length + 1) (gdoQueue tasks) (gdoDegrees tasks) []
    (by simpa using gdoQueue_nodup tasks)
    (by
      intro x hx
      rw [List.nil_append] at hx
      exact ((mem_gdoQueue_iff tasks x).mp hx).1)
    (gdoDegrees_keys tasks)
    (by
      intro x hxk _ hxq
      rw [gdoDegrees_lookup tasks hxk]
      have h0 := initDeg_nonneg (graphOf tasks) x
      have hne : initDeg (graphOf tasks) x ≠ 0 := by
        intro hc
        exact hxq ((mem_gdoQueue_iff tasks x).mpr ⟨hxk, hc⟩)
      omega)
    (by
      intro x hx
      rcases hx with hx | hx
      · exact absurd hx (List.not_mem_nil x)
      · obtain ⟨hxk, h0⟩ := (mem_gdoQueue_iff tasks x).mp hx
        rw [gdoDegrees_lookup tasks hxk, h0])
    (by simp)
    trivial
    (by
      intro x hx d hd
      obtain ⟨hxk, h0⟩ := (mem_gdoQueue_iff tasks x).mp hx
      rw [initDeg_eq_presentDeps_length] at h0
      have hlen : (presentDepsOf (graphOf tasks) x).length = 0 := by exact_mod_cast h0
      rw [List.length_eq_zero] at hlen
      rw [hlen] at hd
      exact absurd hd (List.not_mem_nil d))
    (by
      intro x hxk
      rw [gdoDegrees_lookup tasks hxk, countProcessed_nil]
      omega)
  obtain ⟨hRnd, hRsub⟩ := kahnOrderedIds_spec tasks
  -- the remaining set is empty, else it would contain a cycle
  have hSempty : remainingIdsOf tasks = [] := by
    by_contra hS
    apply hacyc
    rw [hasCycleT_iff_hasCycleG hnd]
    apply cycle_of_successors (remainingIdsOf tasks) hS
    intro x hx
    rw [remainingIdsOf, List.mem_filter] at hx
    obtain ⟨hxk, hxnotR⟩ := hx
    have hxR : x ∉ kahnOrderedIds tasks := by
      intro hc
      rw [contains_iff_mem.mpr hc] at hxnotR
      exact Bool.noConfusion hxnotR
    obtain ⟨d, hd, hdR⟩ := hRem x hxk hxR
    have hdk : d ∈ keysG (graphOf tasks) := by
      rw [presentDepsOf, List.mem_filter] at hd
      exact contains_iff_mem.mp hd.2
    have hddep : d ∈ gdepsOf (graphOf tasks) x := by
      rw [presentDepsOf, List.mem_filter] at hd
      exact hd.1
    refine ⟨d, ?_, hxk, hdk, hddep⟩
    rw [remainingIdsOf, List.mem_filter]
    refine ⟨hdk, ?_⟩
    rw [Bool.not_eq_true']
    rw [← Bool.not_eq_true]
    intro hc
    exact hdR (contains_iff_mem.mp hc)
  have hout : (get_dependency_order tasks).ordered_tasks =
      (kahnOrderedIds tasks).filterMap (fun i => lookupL (taskMapOf tasks) i) := by
    rw [gdo_ordered_tasks_eq, hSempty]
    simp
  -- totality of the lookup on the ordered ids
  have htot : ∀ k ∈ kahnOrderedIds tasks,
      (lookupL (taskMapOf tasks) k).isSome := by
    intro k hkR
    have : k ∈ keysG (taskMapOf tasks) := by
      rw [← keysG_graphOf_eq_taskMapOf]
      exact hRsub k hkR
    obtain ⟨v, hv⟩ := lookupL_isSome this
    rw [hv]
    rfl
  obtain ⟨hlen, hget⟩ := filterMap_total_getD (kahnOrderedIds tasks)
    (fun i => lookupL (taskMapOf tasks) i) htot
  rw [hout]
  intro i hi j hj hdep
  rw [hlen] at hi hj
  have hgi := hget i hi
  have hgj := hget j hj
  -- the tasks at positions i and j and their ids
  obtain ⟨hidi, hmemi⟩ := taskMapOf_entries tasks
    (kahnOrderedIds tasks |>.getD i "",
      ((kahnOrderedIds tasks).filterMap (fun i => lookupL (taskMapOf tasks) i)).getD i default)
    (mem_of_lookupL hgi)
  obtain ⟨hidj, hmemj⟩ := taskMapOf_entries tasks
    (kahnOrderedIds tasks |>.getD j "",
      ((kahnOrderedIds tasks).filterMap (fun i => lookupL (taskMapOf tasks) i)).getD j default)
    (mem_of_lookupL hgj)
  -- unpack the dependency fact
  unfold isDepOfB at hdep
  rw [hidj] at hdep
  have hbdep : (kahnOrderedIds tasks).getD j "" ∈ depsOf
      (((kahnOrderedIds tasks).filterMap (fun i => lookupL (taskMapOf tasks) i)).getD i default) :=
    contains_iff_mem.mp hdep
  have hgdeps : gdepsOf (graphOf tasks) ((kahnOrderedIds tasks).getD i "") = depsOf
      (((kahnOrderedIds tasks).filterMap (fun i => lookupL (taskMapOf tasks) i)).getD i default) := by
    rw [gdepsOf, lookupL_graphOf, hgi]
    rfl
  have hjkey : (kahnOrderedIds tasks).getD j "" ∈ keysG (graphOf tasks) :=
    hRsub _ (getD_mem' _ "" j hj)
  have hpres : (kahnOrderedIds tasks).getD j "" ∈
      presentDepsOf (graphOf tasks) ((kahnOrderedIds tasks).getD i "") := by
    rw [presentDepsOf, List.mem_filter, hgdeps]
    exact ⟨hbdep, contains_iff_mem.mpr hjkey⟩
  have htake := ordOKr_mem_take (kahnOrderedIds tasks) [] hOrd i hi _ hpres
  rcases htake with h1 | h1
  · exact absurd h1 (List.not_mem_nil _)
  · have hidx := indexOf_lt_of_mem_take (kahnOrderedIds tasks) i _ h1
    rw [nodup_indexOf_getD _ hRnd j hj] at hidx
    exact hidx

def c1a : Task := ⟨some "a", none, .absent, .absent, .absent, some []⟩

def c1c : Task := ⟨some "c", none, .absent, .absent, .absent, some ["b"]⟩

def c1b : Task := ⟨some "b", none, .absent, .absent, .absent, some ["a", "a"]⟩

/-- C1 counterexample to the unamended claim: all three tasks have unique
non-empty ids and the dependency graph is acyclic ("c" depends on "b", "b" on
"a"), yet because "b" lists "a" twice its in-degree never reaches zero, so it
is emitted from the leftover set and `ordered_tasks` is `[a, c, b]`, placing
"c" before its dependency "b". -/
theorem C1_counterexample :
    (∀ t ∈ [c1a, c1c, c1b], taskIdOf t ≠ none) ∧
    (presentIds [c1a, c1c, c1b]).Nodup ∧
    ¬ HasCycleT [c1a, c1c, c1b] ∧
    ¬ RespectsDeps (get_dependency_order [c1a, c1c, c1b]).ordered_tasks := by
  refine ⟨by decide, by decide, ?_, by decide⟩
  apply no_cycleT_of_rank (fun s => if s = "a" then 0 else if s = "b" then 1 else 2)
  intro x y hxy
  unfold edgeT at hxy
  obtain ⟨t, ht, hid, hdep, hpres⟩ := hxy
  simp only [List.mem_cons, List.not_mem_nil, or_false] at ht
  rcases ht with rfl | rfl | rfl
  · exact absurd hdep (by simp [c1a, depsOf])
  · have hx := Option.some_inj.mp ((by decide : taskIdOf c1c = some "c").symm.trans hid)
    have hy : y = "b" := by simpa [c1c, depsOf] using hdep
    rw [← hx, hy]
    decide
  · have hx := Option.some_inj.mp ((by decide : taskIdOf c1b = some "b").symm.trans hid)
    have hy : y = "a" := by simpa [c1b, depsOf] using hdep
    rw [← hx, hy]
    decide

def c1w1 : Task := ⟨some "1", none, .absent, .absent, .absent, some []⟩

def c1w2 : Task := ⟨some "2", none, .absent, .absent, .absent, some ["1"]⟩

def c1w3 : Task := ⟨some "3", none, .absent, .absent, .absent, some ["2"]⟩

/-- Witness for C1 on a concrete linear chain 1 ← 2 ← 3. -/
theorem C1_witness :
    (∀ t ∈ [c1w1, c1w2, c1w3], taskIdOf t ≠ none) ∧
    RespectsDeps (get_dependency_order [c1w1, c1w2, c1w3]).ordered_tasks := by
  refine ⟨by decide, ?_⟩
  apply C1_order_respects_dependencies
  · decide
  · decide
  · decide
  · apply no_cycleT_of_rank (fun s => if s = "1" then 0 else if s = "2" then 1 else 2)
    intro x y hxy
    unfold edgeT at hxy
    obtain ⟨t, ht, hid, hdep, hpres⟩ := hxy
    simp only [List.mem_cons, List.not_mem_nil, or_false] at ht
    rcases ht with rfl | rfl | rfl
    · exact absurd hdep (by simp [c1w1, depsOf])
    · have hx := Option.some_inj.mp ((by decide : taskIdOf c1w2 = some "2").symm.trans hid)
      have hy : y = "1" := by simpa [c1w2, depsOf] using hdep
      rw [← hx, hy]
      decide
    · have hx := Option.some_inj.mp ((by decide : taskIdOf c1w3 = some "3").symm.trans hid)
      have hy : y = "2" := by simpa [c1w3, depsOf] using hdep
      rw [← hx, hy]
      decide

/-! ## DFS cycle-detection correctness (for C2) -/

theorem erase_append_self {l : List TaskId} {a : TaskId} (h : a ∉ l) :
    (l ++ [a]).erase a = l := by
  rw [List.erase_append_right _ h, List.erase_cons_head, List.append_nil]

theorem append_eq_self_nil {α : Type} {l e : List α} (h : l ++ e = l) : e = [] := by
  have hlen := congrArg List.length h
  rw [List.length_append] at hlen
  have : e.length = 0 := by omega
  exact List.length_eq_zero.mp this

/-- A complete `dfs` call restores `path` and `rec_stack` and only extends
`visited` and `circular_chains`. -/
theorem dfsNode_pres (g : List (TaskId × List TaskId)) :
    ∀ (fuel : Nat) (node : TaskId) (st : DfsState),
      (dfsNode g fuel node st).path = st.path ∧
      (dfsNode g fuel node st).recStack = st.recStack ∧
      (∃ ev, (dfsNode g fuel node st).visited = st.visited ++ ev) ∧
      (∃ ec, (dfsNode g fuel node st).chains = st.chains ++ ec) := by
  intro fuel
  induction fuel with
  | zero =>
    intro node st
    exact ⟨rfl, rfl, ⟨[], (List.append_nil _).symm⟩, ⟨[], (List.append_nil _).symm⟩⟩
  | succ fuel ih =>
    have fold : ∀ (ds : List TaskId) (cur : DfsState),
        (ds.foldl (fun st d => dfsNode g fuel d st) cur).path = cur.path ∧
        (ds.foldl (fun st d => dfsNode g fuel d st) cur).recStack = cur.recStack ∧
        (∃ ev, (ds.foldl (fun st d => dfsNode g fuel d st) cur).visited = cur.visited ++ ev) ∧
        (∃ ec, (ds.foldl (fun st d => dfsNode g fuel d st) cur).chains = cur.chains ++ ec) := by
      intro ds
      induction ds with
      | nil =>
        intro cur
        exact ⟨rfl, rfl, ⟨[], (List.append_nil _).symm⟩, ⟨[], (List.append_nil _).symm⟩⟩
      | cons d ds ihd =>
        intro cur
        rw [List.foldl_cons]
        obtain ⟨hp1, hr1, ⟨ev1, hv1⟩, ⟨ec1, hc1⟩⟩ := ih d cur
        obtain ⟨hp2, hr2, ⟨ev2, hv2⟩, ⟨ec2, hc2⟩⟩ := ihd (dfsNode g fuel d cur)
        refine ⟨hp2.trans hp1, hr2.trans hr1, ⟨ev1 ++ ev2, ?_⟩, ⟨ec1 ++ ec2, ?_⟩⟩
        · rw [hv2, hv1, List.append_assoc]
        · rw [hc2, hc1, List.append_assoc]
    intro node st
    simp only [dfsNode]
    cases hl : lookupL g node with
    | none =>
      exact ⟨rfl, rfl, ⟨[], (List.append_nil _).symm⟩, ⟨[], (List.append_nil _).symm⟩⟩
    | some deps =>
      dsimp only
      by_cases hrs : node ∈ st.recStack
      · rw [if_pos hrs]
        exact ⟨rfl, rfl, ⟨[], (List.append_nil _).symm⟩, ⟨_, rfl⟩⟩
      · rw [if_neg hrs]
        by_cases hv : node ∈ st.visited
        · rw [if_pos hv]
          exact ⟨rfl, rfl, ⟨[], (List.append_nil _).symm⟩, ⟨[], (List.append_nil _).symm⟩⟩
        · rw [if_neg hv]
          obtain ⟨hp2, hr2, ⟨ev2, hv2⟩, ⟨ec2, hc2⟩⟩ := fold deps
            { st with visited := st.visited ++ [node],
                      recStack := st.recStack ++ [node],
                      path := st.path ++ [node] }
          refine ⟨?_, ?_, ⟨[node] ++ ev2, ?_⟩, ⟨ec2, ?_⟩⟩
          · show (deps.foldl (fun st d => dfsNode g fuel d st)
              { st with visited := st.visited ++ [node],
                        recStack := st.recStack ++ [node],
                        path := st.path ++ [node] }).path.dropLast = st.path
            rw [hp2]
            exact List.dropLast_concat
          · show (deps.foldl (fun st d => dfsNode g fuel d st)
              { st with visited := st.visited ++ [node],
                        recStack := st.recStack ++ [node],
                        path := st.path ++ [node] }).recStack.erase node = st.recStack
            rw [hr2]
            exact erase_append_self hrs
          · show (deps.foldl (fun st d => dfsNode g fuel d st)
              { st with visited := st.visited ++ [node],
                        recStack := st.recStack ++ [node],
                        path := st.path ++ [node] }).visited = st.visited ++ ([node] ++ ev2)
            rw [hv2, List.append_assoc]
          · show (deps.foldl (fun st d => dfsNode g fuel d st)
              { st with visited := st.visited ++ [node],
                        recStack := st.recStack ++ [node],
                        path := st.path ++ [node] }).chains = st.chains ++ ec2
            exact hc2

theorem mem_keysG_of_lookup {α : Type} {g : List (TaskId × α)} {k : TaskId} {v : α}
    (h : lookupL g k = some v) : k ∈ keysG g := by
  show k ∈ g.map Prod.fst
  exact List.mem_map_of_mem Prod.fst (mem_of_lookupL h)

theorem chain_reflTransGen_getLast {R : TaskId → TaskId → Prop} :
    ∀ (l : List TaskId), l.Chain' R → ∀ a ∈ l, ∀ b, l.getLast? = some b →
      Relation.ReflTransGen R a b := by
  intro l
  induction l with
  | nil =>
    intro _ a ha
    exact absurd ha (List.not_mem_nil a)
  | cons x xs ih =>
    intro hch a ha b hb
    cases xs with
    | nil =>
      rw [List.mem_singleton] at ha
      rw [List.getLast?_singleton] at hb
      obtain rfl := Option.some_inj.mp hb
      rw [ha]
    | cons y ys =>
      rw [List.chain'_cons] at hch
      rw [List.getLast?_cons_cons] at hb
      rcases List.mem_cons.mp ha with rfl | ha'
      · exact Relation.ReflTransGen.head hch.1 (ih hch.2 y (List.mem_cons_self _ _) b hb)
      · exact ih hch.2 a ha' b hb

/-- Hitting a node already on the recursion stack really is a cycle: the
`path` is an edge chain, and the current call was reached along an edge from
its last element. -/
theorem hasCycleG_of_stack {g : List (TaskId × List TaskId)} {path : List TaskId}
    {node : TaskId}
    (hch : path.Chain' (edgeG g))
    (hsub : ∀ x ∈ path, x ∈ keysG g)
    (hmem : node ∈ path)
    (hk : node ∈ keysG g)
    (hlast : ∀ b, path.getLast? = some b → node ∈ gdepsOf g b) :
    HasCycleG g := by
  have hne : path ≠ [] := List.ne_nil_of_mem hmem
  obtain ⟨b, hb⟩ := Option.isSome_iff_exists.mp (List.getLast?_isSome.mpr hne)
  have hrt := chain_reflTransGen_getLast path hch node hmem b hb
  have hbp : b ∈ path := List.mem_of_mem_getLast? hb
  have hedge : edgeG g b node := ⟨hsub b hbp, hk, hlast b hb⟩
  exact ⟨node, Relation.TransGen.tail' hrt hedge⟩

/-- A fold of complete `dfs` calls also restores `path`/`rec_stack` and only
extends `visited` and `circular_chains`. -/
theorem dfsFold_pres (g : List (TaskId × List TaskId)) (fuel : Nat) :
    ∀ (ds : List TaskId) (cur : DfsState),
      (ds.foldl (fun st d => dfsNode g fuel d st) cur).path = cur.path ∧
      (ds.foldl (fun st d => dfsNode g fuel d st) cur).recStack = cur.recStack ∧
      (∃ ev, (ds.foldl (fun st d => dfsNode g fuel d st) cur).visited = cur.visited ++ ev) ∧
      (∃ ec, (ds.foldl (fun st d => dfsNode g fuel d st) cur).chains = cur.chains ++ ec) := by
  intro ds
  induction ds with
  | nil =>
    intro cur
    exact ⟨rfl, rfl, ⟨[], (List.append_nil _).symm⟩, ⟨[], (List.append_nil _).symm⟩⟩
  | cons d ds ihd =>
    intro cur
    rw [List.foldl_cons]
    obtain ⟨hp1, hr1, ⟨ev1, hv1⟩, ⟨ec1, hc1⟩⟩ := dfsNode_pres g fuel d cur
    obtain ⟨hp2, hr2, ⟨ev2, hv2⟩, ⟨ec2, hc2⟩⟩ := ihd (dfsNode g fuel d cur)
    refine ⟨hp2.trans hp1, hr2.trans hr1, ⟨ev1 ++ ev2, ?_⟩, ⟨ec1 ++ ec2, ?_⟩⟩
    · rw [hv2, hv1, List.append_assoc]
    · rw [hc2, hc1, List.append_assoc]

/-- Soundness: in an acyclic graph a `dfs` call never appends a chain. -/
theorem dfs_sound (g : List (TaskId × List TaskId)) (hnc : ¬ HasCycleG g) :
    ∀ (fuel : Nat) (node : TaskId) (st : DfsState),
      st.recStack = st.path →
      st.path.Chain' (edgeG g) →
      (∀ x ∈ st.path, x ∈ keysG g) →
      (∀ b, st.path.getLast? = some b → node ∈ gdepsOf g b) →
      (dfsNode g fuel node st).chains = st.chains := by
  intro fuel
  induction fuel with
  | zero =>
    intro node st _ _ _ _
    rfl
  | succ fuel ih =>
    intro node st hrp hch hsub hpre
    simp only [dfsNode]
    cases hl : lookupL g node with
    | none => rfl
    | some deps =>
      dsimp only
      by_cases hrs : node ∈ st.recStack
      · exfalso
        apply hnc
        exact hasCycleG_of_stack hch hsub (hrp ▸ hrs) (mem_keysG_of_lookup hl) hpre
      · rw [if_neg hrs]
        by_cases hv : node ∈ st.visited
        · rw [if_pos hv]
        · rw [if_neg hv]
          have hk : node ∈ keysG g := mem_keysG_of_lookup hl
          have hgd : gdepsOf g node = deps := by
            rw [gdepsOf, hl]
            rfl
          have hch1 : (st.path ++ [node]).Chain' (edgeG g) := by
            rw [List.chain'_append]
            refine ⟨hch, List.chain'_singleton node, ?_⟩
            intro x hx y hy
            rw [List.head?_cons, Option.mem_def, Option.some_inj] at hy
            rw [Option.mem_def] at hx
            rw [← hy]
            exact ⟨hsub x (List.mem_of_mem_getLast? hx), hk, hpre x hx⟩
          have hsub1 : ∀ x ∈ st.path ++ [node], x ∈ keysG g := by
            intro x hx
            rcases List.mem_append.mp hx with h | h
            · exact hsub x h
            · rw [List.mem_singleton] at h
              rw [h]
              exact hk
          have foldlem : ∀ (ds : List TaskId), (∀ d ∈ ds, d ∈ deps) → ∀ (cur : DfsState),
              cur.recStack = cur.path → cur.path = st.path ++ [node] →
              (ds.foldl (fun st d => dfsNode g fuel d st) cur).chains = cur.chains := by
            intro ds
            induction ds with
            | nil =>
              intro _ cur _ _
              rfl
            | cons d ds ihd =>
              intro hds cur hcr hcp
              rw [List.foldl_cons]
              have hchild : (dfsNode g fuel d cur).chains = cur.chains := by
                apply ih d cur hcr (by rw [hcp]; exact hch1) (by rw [hcp]; exact hsub1)
                intro b hb
                rw [hcp, List.getLast?_concat, Option.some_inj] at hb
                rw [← hb, hgd]
                exact hds d (List.mem_cons_self _ _)
              obtain ⟨hp, hr, _, _⟩ := dfsNode_pres g fuel d cur
              rw [ihd (fun d' hd' => hds d' (List.mem_cons_of_mem _ hd'))
                (dfsNode g fuel d cur) (by rw [hp, hr]; exact hcr) (hp.trans hcp)]
              exact hchild
          show (deps.foldl (fun st d => dfsNode g fuel d st)
              { st with visited := st.visited ++ [node],
                        recStack := st.recStack ++ [node],
                        path := st.path ++ [node] }).chains = st.chains
          rw [foldlem deps (fun d hd => hd)
            { st with visited := st.visited ++ [node],
                      recStack := st.recStack ++ [node],
                      path := st.path ++ [node] }
            (by show st.recStack ++ [node] = st.path ++ [node]; rw [hrp])
            rfl]

/-- The completeness invariant: visited ids are distinct graph keys, and the
finished ones (visited and off the recursion stack) can be listed in an order
in which every node follows all of its present dependencies. -/
def VInv (g : List (TaskId × List TaskId)) (st : DfsState) : Prop :=
  st.visited.Nodup ∧ (∀ x ∈ st.visited, x ∈ keysG g) ∧
  ∃ fin : List TaskId, OrdOKr g [] fin ∧
    ∀ x, x ∈ fin ↔ (x ∈ st.visited ∧ x ∉ st.recStack)

/-- Completeness step: a `dfs` call that appends no chain preserves the
invariant and finishes its node (when the node is a graph key).  The fuel
bound says the remaining fuel always exceeds the number of unvisited keys. -/
theorem dfs_complete (g : List (TaskId × List TaskId)) :
    ∀ (fuel : Nat) (node : TaskId) (st : DfsState),
      VInv g st →
      (keysG g).length + 1 ≤ fuel + st.visited.length →
      (dfsNode g fuel node st).chains = st.chains →
      VInv g (dfsNode g fuel node st) ∧
      (node ∈ keysG g → node ∈ (dfsNode g fuel node st).visited ∧
        node ∉ (dfsNode g fuel node st).recStack) := by
  intro fuel
  induction fuel with
  | zero =>
    intro node st hinv hfuel _
    exfalso
    have := length_le_of_nodup_subset hinv.1 hinv.2.1
    omega
  | succ fuel ih =>
    intro node st hinv hfuel
    simp only [dfsNode]
    cases hl : lookupL g node with
    | none =>
      intro _
      refine ⟨hinv, fun hk => ?_⟩
      obtain ⟨v, hv⟩ := lookupL_isSome hk
      rw [hl] at hv
      exact Option.noConfusion hv
    | some deps =>
      dsimp only
      by_cases hrs : node ∈ st.recStack
      · rw [if_pos hrs]
        intro hchains
        exfalso
        have hc' : st.chains ++ [st.path.drop (st.path.indexOf node) ++ [node]] =
            st.chains := hchains
        exact List.noConfusion (append_eq_self_nil hc')
      · rw [if_neg hrs]
        by_cases hv : node ∈ st.visited
        · rw [if_pos hv]
          intro _
          exact ⟨hinv, fun _ => ⟨hv, hrs⟩⟩
        · rw [if_neg hv]
          intro hchains
          obtain ⟨hvnd, hvk, fin, hord, hfin⟩ := hinv
          have hk : node ∈ keysG g := mem_keysG_of_lookup hl
          have hgd : gdepsOf g node = deps := by
            rw [gdepsOf, hl]
            rfl
          -- the invariant holds of the pushed state
          have hvnd1 : (st.visited ++ [node]).Nodup := by
            rw [List.nodup_append]
            exact ⟨hvnd, List.nodup_singleton node,
              by simpa [List.disjoint_singleton] using hv⟩
          have hvk1 : ∀ x ∈ st.visited ++ [node], x ∈ keysG g := by
            intro x hx
            rcases List.mem_append.mp hx with h | h
            · exact hvk x h
            · rw [List.mem_singleton] at h
              rw [h]
              exact hk
          have hfin1 : ∀ x, x ∈ fin ↔
              (x ∈ st.visited ++ [node] ∧ x ∉ st.recStack ++ [node]) := by
            intro x
            rw [hfin x]
            constructor
            · rintro ⟨hxv, hxr⟩
              have hxn : x ≠ node := fun hc => hv (hc ▸ hxv)
              refine ⟨List.mem_append_left _ hxv, fun hc => ?_⟩
              rcases List.mem_append.mp hc with h | h
              · exact hxr h
              · rw [List.mem_singleton] at h
                exact hxn h
            · rintro ⟨hxv, hxr⟩
              have hxn : x ≠ node := by
                intro hc
                exact hxr (List.mem_append_right _ (by rw [hc]; exact List.mem_singleton_self _))
              constructor
              · rcases List.mem_append.mp hxv with h | h
                · exact h
                · rw [List.mem_singleton] at h
                  exact absurd h hxn
              · exact fun hc => hxr (List.mem_append_left _ hc)
          have hinv1 : VInv g { st with visited := st.visited ++ [node],
                                        recStack := st.recStack ++ [node],
                                        path := st.path ++ [node] } :=
            ⟨hvnd1, hvk1, fin, hord, hfin1⟩
          have hfuel1 : (keysG g).length + 1 ≤
              fuel + (st.visited ++ [node]).length := by
            rw [List.length_append]
            simp only [List.length_singleton]
            omega
          -- the fold over the dependency list
          have foldlem : ∀ (ds : List TaskId) (cur : DfsState), VInv g cur →
              (keysG g).length + 1 ≤ fuel + cur.visited.length →
              (ds.foldl (fun st d => dfsNode g fuel d st) cur).chains = cur.chains →
              VInv g (ds.foldl (fun st d => dfsNode g fuel d st) cur) ∧
              (∀ d ∈ ds, d ∈ keysG g →
                d ∈ (ds.foldl (fun st d => dfsNode g fuel d st) cur).visited ∧
                d ∉ (ds.foldl (fun st d => dfsNode g fuel d st) cur).recStack) := by
            intro ds
            induction ds with
            | nil =>
              intro cur hcv _ _
              exact ⟨hcv, fun d hd => absurd hd (List.not_mem_nil d)⟩
            | cons d ds ihd =>
              intro cur hcv hfc hch
              rw [List.foldl_cons] at hch ⊢
              obtain ⟨_, hr1, ⟨ev1, hv1⟩, ⟨ec1, hc1⟩⟩ := dfsNode_pres g fuel d cur
              obtain ⟨_, hr2, ⟨ev2, hv2⟩, ⟨ec2, hc2⟩⟩ :=
                dfsFold_pres g fuel ds (dfsNode g fuel d cur)
              have hecs : ec1 ++ ec2 = [] := by
                apply append_eq_self_nil (l := cur.chains)
                rw [← List.append_assoc, ← hc1, ← hc2]
                exact hch
              have hec1 : ec1 = [] := by
                cases h1 : ec1 with
                | nil => rfl
                | cons a l =>
                  rw [h1, List.cons_append] at hecs
                  exact List.noConfusion hecs
              have hmid : (dfsNode g fuel d cur).chains = cur.chains := by
                rw [hc1, hec1, List.append_nil]
              have hec2 : ec2 = [] := by
                rw [hec1, List.nil_append] at hecs
                exact hecs
              have hrest : (ds.foldl (fun st d => dfsNode g fuel d st)
                  (dfsNode g fuel d cur)).chains = (dfsNode g fuel d cur).chains := by
                rw [hc2, hec2, List.append_nil]
              obtain ⟨hinv', hdfin⟩ := ih d cur hcv hfc hmid
              have hfc' : (keysG g).length + 1 ≤
                  fuel + (dfsNode g fuel d cur).visited.length := by
                rw [hv1, List.length_append]
                omega
              obtain ⟨hinv'', hall''⟩ := ihd (dfsNode g fuel d cur) hinv' hfc' hrest
              refine ⟨hinv'', ?_⟩
              intro d' hd' hd'k
              rcases List.mem_cons.mp hd' with rfl | hd'mem
              · obtain ⟨hdv, hdr⟩ := hdfin hd'k
                constructor
                · rw [hv2]
                  exact List.mem_append_left _ hdv
                · rw [hr2]
                  exact hdr
              · exact hall'' d' hd'mem hd'k
          -- run the fold
          have hch2 : (deps.foldl (fun st d => dfsNode g fuel d st)
              { st with visited := st.visited ++ [node],
                        recStack := st.recStack ++ [node],
                        path := st.path ++ [node] }).chains = st.chains := hchains
          obtain ⟨⟨hnd2, hk2, fin2, hord2, hfin2⟩, hdeps2⟩ := foldlem deps
            { st with visited := st.visited ++ [node],
                      recStack := st.recStack ++ [node],
                      path := st.path ++ [node] } hinv1 hfuel1 hch2
          obtain ⟨_, hr2, ⟨ev2, hv2⟩, _⟩ := dfsFold_pres g fuel deps
            { st with visited := st.visited ++ [node],
                      recStack := st.recStack ++ [node],
                      path := st.path ++ [node] }
          have hr2' : (deps.foldl (fun st d => dfsNode g fuel d st)
              { st with visited := st.visited ++ [node],
                        recStack := st.recStack ++ [node],
                        path := st.path ++ [node] }).recStack =
              st.recStack ++ [node] := hr2
          have hv2' : (deps.foldl (fun st d => dfsNode g fuel d st)
              { st with visited := st.visited ++ [node],
                        recStack := st.recStack ++ [node],
                        path := st.path ++ [node] }).visited =
              (st.visited ++ [node]) ++ ev2 := hv2
          have hnodev : node ∈ (deps.foldl (fun st d => dfsNode g fuel d st)
              { st with visited := st.visited ++ [node],
                        recStack := st.recStack ++ [node],
                        path := st.path ++ [node] }).visited := by
            rw [hv2']
            exact List.mem_append_left _
              (List.mem_append_right _ (List.mem_singleton_self node))
          refine ⟨⟨hnd2, hk2, fin2 ++ [node], ?_, ?_⟩, fun _ => ⟨hnodev, ?_⟩⟩
          · apply ordOKr_append hord2
            intro dd hdd
            rw [presentDepsOf, hgd, List.mem_filter] at hdd
            have hddk := contains_iff_mem.mp hdd.2
            obtain ⟨hddv, hddr⟩ := hdeps2 dd hdd.1 hddk
            rw [List.nil_append]
            exact (hfin2 dd).mpr ⟨hddv, hddr⟩
          · intro x
            show x ∈ fin2 ++ [node] ↔
              (x ∈ (deps.foldl (fun st d => dfsNode g fuel d st)
                { st with visited := st.visited ++ [node],
                          recStack := st.recStack ++ [node],
                          path := st.path ++ [node] }).visited ∧
               x ∉ (deps.foldl (fun st d => dfsNode g fuel d st)
                { st with visited := st.visited ++ [node],
                          recStack := st.recStack ++ [node],
                          path := st.path ++ [node] }).recStack.erase node)
            rw [hr2', erase_append_self hrs, List.mem_append, List.mem_singleton]
            constructor
            · rintro (hx | rfl)
              · obtain ⟨hxv, hxr⟩ := (hfin2 x).mp hx
                refine ⟨hxv, fun hc => hxr ?_⟩
                rw [hr2']
                exact List.mem_append_left _ hc
              · exact ⟨hnodev, hrs⟩
            · rintro ⟨hxv, hxr⟩
              by_cases hxn : x = node
              · exact Or.inr hxn
              · refine Or.inl ((hfin2 x).mpr ⟨hxv, ?_⟩)
                rw [hr2']
                intro hc
                rcases List.mem_append.mp hc with hc | hc
                · exact hxr hc
                · rw [List.mem_singleton] at hc
                  exact hxn hc
          · show node ∉ (deps.foldl (fun st d => dfsNode g fuel d st)
                { st with visited := st.visited ++ [node],
                          recStack := st.recStack ++ [node],
                          path := st.path ++ [node] }).recStack.erase node
            rw [hr2', erase_append_self hrs]
            exact hrs

theorem getD_indexOf :
    ∀ (l : List TaskId) (a : TaskId), a ∈ l → l.getD (l.indexOf a) "" = a := by
  intro l
  induction l with
  | nil =>
    intro a ha
    exact absurd ha (List.not_mem_nil a)
  | cons x xs ih =>
    intro a ha
    by_cases hxa : x = a
    · rw [hxa, List.indexOf_cons_self, List.getD_cons_zero]
    · rw [List.indexOf_cons_ne _ hxa, List.getD_cons_succ]
      exact ih a ((List.mem_cons.mp ha).resolve_left (fun hc => hxa hc.symm))

/-- A finishing order in which every node follows its present dependencies
rules out cycles among the graph keys. -/
theorem no_cycleG_of_fin (g : List (TaskId × List TaskId)) (fin : List TaskId)
    (hord : OrdOKr g [] fin) (hall : ∀ k ∈ keysG g, k ∈ fin) : ¬ HasCycleG g := by
  rintro ⟨x, hx⟩
  have hdec : ∀ a b, edgeG g a b → fin.indexOf b < fin.indexOf a := by
    intro a b hab
    obtain ⟨hak, hbk, hbd⟩ := hab
    have haf : a ∈ fin := hall a hak
    have hi : fin.indexOf a < fin.length := List.indexOf_lt_length.mpr haf
    have hb : b ∈ presentDepsOf g (fin.getD (fin.indexOf a) "") := by
      rw [getD_indexOf fin a haf, presentDepsOf, List.mem_filter]
      exact ⟨hbd, contains_iff_mem.mpr hbk⟩
    rcases ordOKr_mem_take fin [] hord (fin.indexOf a) hi b hb with h | h
    · exact absurd h (List.not_mem_nil b)
    · exact indexOf_lt_of_mem_take fin _ b h
  have key : ∀ a b, Relation.TransGen (edgeG g) a b → fin.indexOf b < fin.indexOf a := by
    intro a b hab
    induction hab with
    | single h1 => exact hdec _ _ h1
    | tail _ h1 ih2 => exact lt_trans (hdec _ _ h1) ih2
  exact absurd (key x x hx) (lt_irrefl _)

/-- The visiting loop over the graph keys (lines 65-67) only extends
`visited` and `circular_chains`, and keeps the recursion stack. -/
theorem rootsFold_pres (g : List (TaskId × List TaskId)) (fuel : Nat) :
    ∀ (ks : List TaskId) (st : DfsState),
      (∃ ev, (ks.foldl (fun st k => if k ∈ st.visited then st
        else dfsNode g fuel k { st with path := [] }) st).visited = st.visited ++ ev) ∧
      (∃ ec, (ks.foldl (fun st k => if k ∈ st.visited then st
        else dfsNode g fuel k { st with path := [] }) st).chains = st.chains ++ ec) ∧
      (ks.foldl (fun st k => if k ∈ st.visited then st
        else dfsNode g fuel k { st with path := [] }) st).recStack = st.recStack := by
  intro ks
  induction ks with
  | nil =>
    intro st
    exact ⟨⟨[], (List.append_nil _).symm⟩, ⟨[], (List.append_nil _).symm⟩, rfl⟩
  | cons k ks ihk =>
    intro st
    rw [List.foldl_cons]
    by_cases hkv : k ∈ st.visited
    · rw [if_pos hkv]
      exact ihk st
    · rw [if_neg hkv]
      obtain ⟨_, hr1, ⟨ev1, hv1⟩, ⟨ec1, hc1⟩⟩ :=
        dfsNode_pres g fuel k { st with path := [] }
      obtain ⟨⟨ev2, hv2⟩, ⟨ec2, hc2⟩, hr2⟩ := ihk (dfsNode g fuel k { st with path := [] })
      refine ⟨⟨ev1 ++ ev2, ?_⟩, ⟨ec1 ++ ec2, ?_⟩, ?_⟩
      · rw [hv2, hv1]
        show (st.visited ++ ev1) ++ ev2 = st.visited ++ (ev1 ++ ev2)
        rw [List.append_assoc]
      · rw [hc2, hc1]
        show (st.chains ++ ec1) ++ ec2 = st.chains ++ (ec1 ++ ec2)
        rw [List.append_assoc]
      · rw [hr2, hr1]

/-- In an acyclic graph the visiting loop never records a chain. -/
theorem rootsFold_sound (g : List (TaskId × List TaskId)) (hnc : ¬ HasCycleG g)
    (fuel : Nat) :
    ∀ (ks : List TaskId) (st : DfsState), st.recStack = [] →
      (ks.foldl (fun st k => if k ∈ st.visited then st
        else dfsNode g fuel k { st with path := [] }) st).chains = st.chains := by
  intro ks
  induction ks with
  | nil =>
    intro st _
    rfl
  | cons k ks ihk =>
    intro st hrs
    rw [List.foldl_cons]
    by_cases hkv : k ∈ st.visited
    · rw [if_pos hkv]
      exact ihk st hrs
    · rw [if_neg hkv]
      have hmid : (dfsNode g fuel k { st with path := [] }).chains = st.chains := by
        apply dfs_sound g hnc fuel k { st with path := [] }
        · exact hrs
        · exact List.chain'_nil
        · intro x hx
          exact absurd hx (List.not_mem_nil x)
        · intro b hb
          exact Option.noConfusion hb
      obtain ⟨_, hr1, _, _⟩ := dfsNode_pres g fuel k { st with path := [] }
      have hrs1 : (dfsNode g fuel k { st with path := [] }).recStack = [] := by
        rw [hr1]
        exact hrs
      rw [ihk (dfsNode g fuel k { st with path := [] }) hrs1]
      exact hmid

/-- If the visiting loop records no chain, it finishes every key it was
given, preserving the invariant. -/
theorem rootsFold_complete (g : List (TaskId × List TaskId)) (fuel : Nat)
    (hfuel : (keysG g).length + 1 ≤ fuel) :
    ∀ (ks : List TaskId), (∀ k ∈ ks, k ∈ keysG g) → ∀ (st : DfsState), VInv g st →
      (ks.foldl (fun st k => if k ∈ st.visited then st
        else dfsNode g fuel k { st with path := [] }) st).chains = st.chains →
      VInv g (ks.foldl (fun st k => if k ∈ st.visited then st
        else dfsNode g fuel k { st with path := [] }) st) ∧
      ∀ k ∈ ks, k ∈ (ks.foldl (fun st k => if k ∈ st.visited then st
        else dfsNode g fuel k { st with path := [] }) st).visited := by
  intro ks
  induction ks with
  | nil =>
    intro _ st hinv _
    exact ⟨hinv, fun k hk => absurd hk (List.not_mem_nil k)⟩
  | cons k ks ihk =>
    intro hks st hinv hch
    rw [List.foldl_cons] at hch ⊢
    by_cases hkv : k ∈ st.visited
    · rw [if_pos hkv] at hch ⊢
      obtain ⟨hinv', hall'⟩ := ihk (fun u hu => hks u (List.mem_cons_of_mem _ hu)) st hinv hch
      refine ⟨hinv', ?_⟩
      intro k' hk'
      rcases List.mem_cons.mp hk' with rfl | h
      · obtain ⟨⟨ev, hev⟩, _, _⟩ := rootsFold_pres g fuel ks st
        rw [hev]
        exact List.mem_append_left _ hkv
      · exact hall' k' h
    · rw [if_neg hkv] at hch ⊢
      obtain ⟨_, _, _, ⟨ec1, hc1⟩⟩ := dfsNode_pres g fuel k { st with path := [] }
      obtain ⟨_, ⟨ec2, hc2⟩, _⟩ := rootsFold_pres g fuel ks (dfsNode g fuel k { st with path := [] })
      have hecs : ec1 ++ ec2 = [] := by
        apply append_eq_self_nil (l := st.chains)
        rw [← List.append_assoc]
        have hc1' : (dfsNode g fuel k { st with path := [] }).chains =
            st.chains ++ ec1 := hc1
        rw [← hc1', ← hc2]
        exact hch
      have hec1 : ec1 = [] := by
        cases h1 : ec1 with
        | nil => rfl
        | cons a l =>
          rw [h1, List.cons_append] at hecs
          exact List.noConfusion hecs
      have hec2 : ec2 = [] := by
        rw [hec1, List.nil_append] at hecs
        exact hecs
      have hmid : (dfsNode g fuel k { st with path := [] }).chains = st.chains := by
        have hc1' : (dfsNode g fuel k { st with path := [] }).chains =
            st.chains ++ ec1 := hc1
        rw [hc1', hec1, List.append_nil]
      have hrest : (ks.foldl (fun st k => if k ∈ st.visited then st
          else dfsNode g fuel k { st with path := [] })
          (dfsNode g fuel k { st with path := [] })).chains =
          (dfsNode g fuel k { st with path := [] }).chains := by
        rw [hc2, hec2, List.append_nil]
      have hmid' : (dfsNode g fuel k { st with path := [] }).chains =
          ({ st with path := ([] : List TaskId) } : DfsState).chains := hmid
      obtain ⟨hinvmid, hfin⟩ := dfs_complete g fuel k { st with path := [] }
        hinv (by omega) hmid'
      obtain ⟨hinv'', hall''⟩ := ihk (fun u hu => hks u (List.mem_cons_of_mem _ hu))
        (dfsNode g fuel k { st with path := [] }) hinvmid hrest
      refine ⟨hinv'', ?_⟩
      intro k' hk'
      rcases List.mem_cons.mp hk' with rfl | h
      · obtain ⟨⟨ev, hev⟩, _, _⟩ := rootsFold_pres g fuel ks
          (dfsNode g fuel k' { st with path := [] })
        rw [hev]
        exact List.mem_append_left _ (hfin (hks k' (List.mem_cons_self _ _))).1
      · exact hall'' k' h

theorem detect_chains_of_nocycle (tasks : List Task)
    (hnc : ¬ HasCycleG (graphOf tasks)) :
    (detect_circular_dependencies tasks).circular_chains = [] :=
  rootsFold_sound (graphOf tasks) hnc ((keysG (graphOf tasks)).length + 1)
    (keysG (graphOf tasks)) ⟨[], [], [], []⟩ rfl

theorem detect_nocycle_of_chains (tasks : List Task)
    (h : (detect_circular_dependencies tasks).circular_chains = []) :
    ¬ HasCycleG (graphOf tasks) := by
  have hch : ((keysG (graphOf tasks)).foldl (fun st k => if k ∈ st.visited then st
      else dfsNode (graphOf tasks) ((keysG (graphOf tasks)).length + 1) k
        { st with path := [] }) ⟨[], [], [], []⟩).chains =
      (⟨[], [], [], []⟩ : DfsState).chains := h
  have hinit : VInv (graphOf tasks) ⟨[], [], [], []⟩ := by
    refine ⟨List.nodup_nil, ?_, [], trivial, ?_⟩
    · intro x hx
      exact absurd hx (List.not_mem_nil x)
    · intro x
      constructor
      · intro hx
        exact absurd hx (List.not_mem_nil x)
      · rintro ⟨hx, _⟩
        exact absurd hx (List.not_mem_nil x)
  obtain ⟨⟨_, _, fin, hord, hfin⟩, hall⟩ := rootsFold_complete (graphOf tasks)
    ((keysG (graphOf tasks)).length + 1) (le_refl _) (keysG (graphOf tasks))
    (fun k hk => hk) ⟨[], [], [], []⟩ hinit hch
  obtain ⟨_, _, hrsF⟩ := rootsFold_pres (graphOf tasks)
    ((keysG (graphOf tasks)).length + 1) (keysG (graphOf tasks)) ⟨[], [], [], []⟩
  apply no_cycleG_of_fin (graphOf tasks) fin hord
  intro k hk
  refine (hfin k).mpr ⟨hall k hk, ?_⟩
  rw [hrsF]
  exact List.not_mem_nil k

theorem detect_has_circular_eq (tasks : List Task) :
    (detect_circular_dependencies tasks).has_circular =
      !(detect_circular_dependencies tasks).circular_chains.isEmpty := rfl

/-! ## Claim C2 -/

/-- C2 (amended): for every input task list whose non-empty ids are unique,
`detect_circular_dependencies` returns `has_circular = true` iff the directed
graph over the present ids (edges from each task to its present dependency
ids, self-loops included) has a cycle, and when it returns false,
`circular_chains` is empty.  (Without unique ids the claim fails: a later
duplicate overwrites the dict entry, hiding the first task's edges.) -/
theorem C2_has_circular_iff_cycle (tasks : List Task)
    (hnd : (presentIds tasks).Nodup) :
    ((detect_circular_dependencies tasks).has_circular = true ↔ HasCycleT tasks) ∧
    ((detect_circular_dependencies tasks).has_circular = false →
      (detect_circular_dependencies tasks).circular_chains = []) := by
  have hcc : (detect_circular_dependencies tasks).has_circular = false →
      (detect_circular_dependencies tasks).circular_chains = [] := by
    intro hcirc
    rw [detect_has_circular_eq, Bool.not_eq_false'] at hcirc
    exact List.isEmpty_iff.mp hcirc
  refine ⟨?_, hcc⟩
  rw [hasCycleT_iff_hasCycleG hnd]
  constructor
  · intro h
    by_contra hnc
    have hchains := detect_chains_of_nocycle tasks hnc
    rw [detect_has_circular_eq, hchains] at h
    exact Bool.noConfusion h
  · intro h
    by_contra hne
    rw [Bool.not_eq_true] at hne
    exact detect_nocycle_of_chains tasks (hcc hne) h

def c2x : Task := ⟨some "a", none, .absent, .absent, .absent, some ["a"]⟩

def c2y : Task := ⟨some "a", none, .absent, .absent, .absent, some []⟩

/-- C2 counterexample to the unamended claim: two tasks share the id "a"; the
first depends on "a" (a self-loop in the claim's graph), but the second
overwrites the dict entry with an empty dependency list, so the code reports
no cycle. -/
theorem C2_counterexample :
    (detect_circular_dependencies [c2x, c2y]).has_circular = false ∧
    HasCycleT [c2x, c2y] := by
  refine ⟨by decide, "a", Relation.TransGen.single ?_⟩
  exact ⟨c2x, List.mem_cons_self _ _, by decide, by decide, by decide⟩

def c2w1 : Task := ⟨some "1", none, .absent, .absent, .absent, some ["2"]⟩

def c2w2 : Task := ⟨some "2", none, .absent, .absent, .absent, some ["3"]⟩

def c2w3 : Task := ⟨some "3", none, .absent, .absent, .absent, some ["1"]⟩

/-- Witness for C2 on the spec's three-task cycle 1 → 2 → 3 → 1. -/
theorem C2_witness :
    (presentIds [c2w1, c2w2, c2w3]).Nodup ∧
    (((detect_circular_dependencies [c2w1, c2w2, c2w3]).has_circular = true ↔
        HasCycleT [c2w1, c2w2, c2w3]) ∧
      ((detect_circular_dependencies [c2w1, c2w2, c2w3]).has_circular = false →
        (detect_circular_dependencies [c2w1, c2w2, c2w3]).circular_chains = [])) :=
  ⟨by decide, C2_has_circular_iff_cycle [c2w1, c2w2, c2w3] (by decide)⟩

end STA
